import Mathlib

/-!
Verification of the SwiftBite Shamir secret-sharing reconstruction core
(`src/lib/shamir.ts`).  The repository ships two near-duplicate variants of
the reconstruction module in that file; we embed both:

* variant 1 (`V1` namespace): keyed-object input shape, shares decoded via
  `parseBigInt`, de-duplication by x through a JS `Map`, hardcoded prime 257;
* variant 2 (`V2` namespace): flat-array input shape, prime supplied by the
  caller, no de-duplication, consistency checked against the growing set.

JavaScript `BigInt` arithmetic is arbitrary precision; its `%` and `/` are
the truncated (round-toward-zero) remainder and quotient, which are Lean's
`Int.tmod` and `Int.tdiv`.  Thrown exceptions are modelled by `Except JsErr`.
-/

/-- Truncated remainder: the semantics of the JavaScript `%` on BigInt. -/
def jsMod (a b : Int) : Int := Int.tmod a b

/-- Truncated quotient: the semantics of the JavaScript `/` on BigInt. -/
def jsDiv (a b : Int) : Int := Int.tdiv a b

/-- Error kinds for the exceptions thrown / error objects returned by
`shamir.ts`, one constructor per distinct message in the source. -/
inductive JsErr where
  /-- thrown by `modInverse` when the extended-Euclid gcd is not 1 -/
  | noInverse : JsErr
  /-- thrown by variant 1's `reconstructSecret` when the accumulated
  denominator is exactly `0n` (duplicate x-coordinates) -/
  | dupAbscissa : JsErr
  /-- `Not enough shares provided` (raw count below k) -/
  | insufficientShares : JsErr
  /-- `Not enough unique shares provided` (variant 1, count after
  de-duplication below k) -/
  | insufficientUnique : JsErr
  /-- `Could not find a consistent set of k shares` -/
  | noConsistentSubset : JsErr
  /-- `Invalid base for BigInt conversion` -/
  | invalidBase : JsErr
  /-- `Value contains invalid characters for base ...`, and the JS
  `SyntaxError` thrown by `BigInt(string)` on malformed input -/
  | invalidDigits : JsErr
  deriving DecidableEq, Repr

/-- A share: a point `(x, y)`.  In variant 1 both coordinates are `bigint`;
in variant 2 `x` is a JS number and `y` a decimal string decoded with
`BigInt`, both denoting integers, so one integer pair type serves both. -/
structure Share where
  x : Int
  y : Int
  deriving DecidableEq, Repr

/-- Fuel-driven body of `egcd` from `shamir.ts` (identical in both variants):

`function egcd(a, b) { if (a === 0n) return [b, 0n, 1n];
 const [g, y, x] = egcd(b % a, a); return [g, x - (b / a) * y, y]; }`

The fuel only forces termination; `egcd` supplies enough fuel that the
zero-fuel branch is never taken (see `egcdAux_fuel_irrel`). -/
def egcdAux : Nat → Int → Int → Int × Int × Int
  | 0, _, b => (b, 0, 1)
  | fuel + 1, a, b =>
    if a = 0 then (b, 0, 1)
    else
      let r := egcdAux fuel (jsMod b a) a
      (r.1, r.2.2 - jsDiv b a * r.2.1, r.2.1)

/-- Extended Euclid exactly as in the source (see `egcdAux`). -/
def egcd (a b : Int) : Int × Int × Int := egcdAux (a.natAbs + 1) a b

/-- `modInverse(a, m)` from `shamir.ts`: throws when the first component of
`egcd(a, m)` is not `1n`, otherwise returns `(x % m + m) % m`. -/
def modInverse (a m : Int) : Except JsErr Int :=
  let r := egcd a m
  if r.1 ≠ 1 then .error .noInverse
  else .ok (jsMod (jsMod r.2.1 m + m) m)

/-- Monadic left fold over `Except`, the shape of every `for` loop in
`shamir.ts` whose body can throw: the first thrown error aborts the loop. -/
def foldME {α β : Type} (f : α → β → Except JsErr α) : α → List β → Except JsErr α
  | a, [] => .ok a
  | a, b :: l =>
    match f a b with
    | .error e => .error e
    | .ok a2 => foldME f a2 l

/-- One step of the numerator/denominator loop shared by variant 1's
`reconstructSecret` (lines 63-68) and variant 2's `lagrangeInterpolate`
(lines 218-224): skip `j === i`, otherwise multiply the numerator by
`(0n - xj)` and the denominator by `(xi - xj)`, each reduced by `% prime`. -/
def ndStep (shares : List Share) (prime : Int) (i : Nat) (nd : Int × Int)
    (j : Nat) : Int × Int :=
  if j = i then nd
  else
    (jsMod (nd.1 * (0 - (shares.getD j ⟨0, 0⟩).x)) prime,
      jsMod (nd.2 * ((shares.getD i ⟨0, 0⟩).x - (shares.getD j ⟨0, 0⟩).x)) prime)

/-- The numerator/denominator pair after the whole inner `j` loop for
row `i`. -/
def numDenLoop (shares : List Share) (prime : Int) (i : Nat) : Int × Int :=
  (List.range shares.length).foldl (ndStep shares prime i) (1, 1)

namespace V1

/-- Inner `j` loop of variant 1's `reconstructSecret` for row `i`
(lines 63-68). -/
def numDen (shares : List Share) (prime : Int) (i : Nat) : Int × Int :=
  numDenLoop shares prime i

/-- Body of the outer `i` loop of variant 1's `reconstructSecret`: throws on a
zero denominator, otherwise adds `(yi * numerator * modInverse(denominator))
% prime` into the running `secret`, reduced mod `prime`. -/
def rsStep (shares : List Share) (prime : Int) (secret : Int) (i : Nat) :
    Except JsErr Int :=
  let nd := numDen shares prime i
  if nd.2 = 0 then .error .dupAbscissa
  else
    match modInverse nd.2 prime with
    | .error e => .error e
    | .ok inv =>
      let yi := (shares.getD i ⟨0, 0⟩).y
      .ok (jsMod (secret + jsMod (yi * nd.1 * inv) prime) prime)

/-- Variant 1 `reconstructSecret(shares, prime)`: Lagrange interpolation at
x = 0, returning `(secret + prime) % prime`. -/
def reconstructSecret (shares : List Share) (prime : Int) : Except JsErr Int :=
  match foldME (rsStep shares prime) 0 (List.range shares.length) with
  | .error e => .error e
  | .ok secret => .ok (jsMod (secret + prime) prime)

/-- Recursive worker of variant 1's `getCombinations`: DFS that first takes
the next element and then skips it, emitting `combination` as soon as it has
`size` elements.  (The source checks `combination.length === size` before
inspecting `startIndex`; when the lengths match the result is `[combination]`
whether or not input remains, so matching on the remainder first preserves
the semantics while keeping the recursion structural.) -/
def gcAux (size : Nat) : List Share → List Share → List (List Share)
  | [], comb => if comb.length = size then [comb] else []
  | a :: rest, comb =>
    if comb.length = size then [comb]
    else gcAux size rest (comb ++ [a]) ++ gcAux size rest comb

/-- Variant 1 `getCombinations(array, size)` (lines 81-99). -/
def getCombinations (array : List Share) (size : Nat) : List (List Share) :=
  gcAux size array []

/-- Inner `j` loop of variant 1's `evaluatePolynomial` for row `i`: for each
`j ≠ i` multiplies `term` by `(x - xj)` and by `modInverse(xi - xj, prime)`
(which can throw), reducing mod `prime` each step. -/
def epTerm (x : Int) (points : List Share) (prime : Int) (i : Nat) :
    Except JsErr Int :=
  let xi := (points.getD i ⟨0, 0⟩).x
  let yi := (points.getD i ⟨0, 0⟩).y
  foldME
    (fun term j =>
      if j = i then .ok term
      else
        let xj := (points.getD j ⟨0, 0⟩).x
        match modInverse (xi - xj) prime with
        | .error e => .error e
        | .ok inv => .ok (jsMod (term * (x - xj) * inv) prime))
    yi (List.range points.length)

/-- Body of the outer `i` loop of variant 1's `evaluatePolynomial`: compute
the row term (which can throw) and add it into the running result, reduced
mod `prime` (line 115). -/
def epStep (x : Int) (points : List Share) (prime : Int) (result : Int)
    (i : Nat) : Except JsErr Int :=
  match epTerm x points prime i with
  | .error e => .error e
  | .ok term => .ok (jsMod (result + term) prime)

/-- Variant 1 `evaluatePolynomial(x, points, prime)` (lines 101-118):
evaluates the interpolating polynomial of `points` at `x`, returning
`(result + prime) % prime`. -/
def evaluatePolynomial (x : Int) (points : List Share) (prime : Int) :
    Except JsErr Int :=
  match foldME (epStep x points prime) 0 (List.range points.length) with
  | .error e => .error e
  | .ok result => .ok (jsMod (result + prime) prime)

/-- Successful result of variant 1's `findValidSharesAndReconstruct`:
`{ secret, validShares, invalidShares }`. -/
structure Success where
  secret : Int
  validShares : List Share
  invalidShares : List Share
  deriving DecidableEq, Repr

/-- One step of the consistency loop (lines 161-166): predict the y of one
other share against the candidate `combo` (which can throw) and append the
share when the prediction matches exactly. -/
def consStep (combo : List Share) (prime : Int) (consistent : List Share)
    (other : Share) : Except JsErr (List Share) :=
  match evaluatePolynomial other.x combo prime with
  | .error e => .error e
  | .ok predictedY =>
    .ok (if predictedY = other.y then consistent ++ [other] else consistent)

/-- Body of the `try` block run for one candidate `combo` (lines 155-172):
interpolate the candidate, grow `consistentShares` with every other share
whose predicted y matches, and if at least `k` shares are consistent return
the success payload (re-interpolating the first `k` consistent shares);
otherwise report `none` so the search continues. -/
def processCombo (uniqueShares : List Share) (k : Nat) (prime : Int)
    (combo : List Share) : Except JsErr (Option Success) :=
  match reconstructSecret combo prime with
  | .error e => .error e
  | .ok _secretCandidate =>
    let otherShares := uniqueShares.filter fun s => ¬ combo.any fun cs => cs.x = s.x
    match foldME (consStep combo prime) combo otherShares with
    | .error e => .error e
    | .ok consistentShares =>
      if k ≤ consistentShares.length then
        match reconstructSecret (consistentShares.take k) prime with
        | .error e => .error e
        | .ok finalSecret =>
          .ok (some
            { secret := finalSecret
              validShares := consistentShares
              invalidShares :=
                uniqueShares.filter fun s => ¬ consistentShares.any fun cs => cs.x = s.x })
      else .ok none

/-- De-duplication by x via `new Map(allShares.map(item => [item.x, item]))`
(line 146): JS `Map` keeps keys in first-insertion order and overwrites the
value on a repeated key, so a later share with the same x replaces the
earlier one in place. -/
def upsert (acc : List Share) (s : Share) : List Share :=
  if acc.any fun t => t.x = s.x then acc.map fun t => if t.x = s.x then s else t
  else acc ++ [s]

/-- List of `Map` values after inserting all shares in order (line 146). -/
def dedupByX (l : List Share) : List Share := l.foldl upsert []

end V1

/-- The candidate loop shared by both variants (lines 154-177 and 255-276):
each candidate is processed inside `try`; a thrown error or a consistent set
smaller than `k` moves on to the next candidate; exhaustion returns the
`Could not find a consistent set` error. -/
def searchLoop {σ : Type} (process : List Share → Except JsErr (Option σ)) :
    List (List Share) → Except JsErr σ
  | [] => .error .noConsistentSubset
  | c :: rest =>
    match process c with
    | .ok (some r) => .ok r
    | _ => searchLoop process rest

namespace V1

/-- Variant 1 `findValidSharesAndReconstruct` (lines 120-180) after the JSON
container has been parsed: `k` is `data.keys.k` and `allShares` the share
list accumulated from the object keys (the `prime` is hardcoded to `257n` on
line 126).  Parsing of the JSON container itself is the external
collaborator of spec section 6 and is modelled separately (`parseBigInt`). -/
def findValidSharesAndReconstruct (k : Nat) (allShares : List Share) :
    Except JsErr Success :=
  if allShares.length < k then .error .insufficientShares
  else
    let uniqueShares := dedupByX allShares
    if uniqueShares.length < k then .error .insufficientUnique
    else searchLoop (processCombo uniqueShares k 257) (getCombinations uniqueShares k)

end V1

namespace V2

/-- Inner `j` loop of variant 2's `lagrangeInterpolate` for row `i`
(lines 218-224): the same accumulation as variant 1, but variant 2 has no
explicit zero check afterwards; a zero denominator surfaces through
`modInverse` instead. -/
def numDen (shares : List Share) (prime : Int) (i : Nat) : Int × Int :=
  numDenLoop shares prime i

/-- Body of the outer loop of variant 2's `lagrangeInterpolate`: note the
product `yi * numerator * invDenominator` is not reduced before being added
(line 227), only the running sum is (line 228). -/
def liStep (shares : List Share) (prime : Int) (secret : Int) (i : Nat) :
    Except JsErr Int :=
  let nd := numDen shares prime i
  match modInverse nd.2 prime with
  | .error e => .error e
  | .ok inv =>
    let yi := (shares.getD i ⟨0, 0⟩).y
    .ok (jsMod (secret + yi * nd.1 * inv) prime)

/-- Variant 2 `lagrangeInterpolate(shares, prime)` (lines 209-232). -/
def lagrangeInterpolate (shares : List Share) (prime : Int) : Except JsErr Int :=
  match foldME (liStep shares prime) 0 (List.range shares.length) with
  | .error e => .error e
  | .ok secret => .ok (jsMod (secret + prime) prime)

/-- Inner `j` loop of variant 2's `evaluatePolynomial` for row `i`
(lines 290-297): no intermediate reduction at all; `term` grows as a raw
integer product. -/
def epTerm (shares : List Share) (prime : Int) (atX : Int) (i : Nat) :
    Except JsErr Int :=
  let xi := (shares.getD i ⟨0, 0⟩).x
  let yi := (shares.getD i ⟨0, 0⟩).y
  foldME
    (fun term j =>
      if j = i then .ok term
      else
        let xj := (shares.getD j ⟨0, 0⟩).x
        match modInverse (xi - xj) prime with
        | .error e => .error e
        | .ok inv => .ok (term * (atX - xj) * inv))
    yi (List.range shares.length)

/-- Body of the outer `i` loop of variant 2's `evaluatePolynomial`: the row
term is added without any reduction (line 298). -/
def epStep (shares : List Share) (prime : Int) (atX : Int) (result : Int)
    (i : Nat) : Except JsErr Int :=
  match epTerm shares prime atX i with
  | .error e => .error e
  | .ok term => .ok (result + term)

/-- Variant 2 `evaluatePolynomial(shares, prime, atX)` (lines 281-302):
sums the raw terms and reduces only at the end with
`(result % prime + prime) % prime`. -/
def evaluatePolynomial (shares : List Share) (prime : Int) (atX : Int) :
    Except JsErr Int :=
  match foldME (epStep shares prime atX) 0 (List.range shares.length) with
  | .error e => .error e
  | .ok result => .ok (jsMod (jsMod result prime + prime) prime)

/-- Variant 2's nested `getCombinations` (lines 242-251): checks `size === 0`
first, then an empty array, then recurses with and without the head. -/
def getCombinations : List Share → Nat → List (List Share)
  | _, 0 => [[]]
  | [], _ + 1 => []
  | first :: rest, size + 1 =>
    (getCombinations rest size).map (first :: ·) ++ getCombinations rest (size + 1)

/-- Successful result of variant 2's `findValidSharesAndReconstruct`:
`{ secret, invalidShares }` (no valid-share list is returned). -/
structure Success where
  secret : Int
  invalidShares : List Share
  deriving DecidableEq, Repr

/-- One step of variant 2's consistency loop (lines 260-267): skip a share
whose x is already present (line 261), otherwise evaluate against the
growing `consistentShares` (line 263) and append the share when its y
matches exactly. -/
def consStep (prime : Int) (consistent : List Share) (share : Share) :
    Except JsErr (List Share) :=
  if consistent.any fun s => s.x = share.x then .ok consistent
  else
    match evaluatePolynomial consistent prime share.x with
    | .error e => .error e
    | .ok reconstructedY =>
      .ok (if share.y = reconstructedY then consistent ++ [share] else consistent)

/-- Body of the `try` block for one candidate (lines 256-272): interpolate
the candidate, run the consistency loop over all shares, and on acceptance
return the candidate's own interpolated secret together with the
invalid-share partition (no valid-share list in this variant). -/
def processCombo (shares : List Share) (k : Nat) (prime : Int)
    (combination : List Share) : Except JsErr (Option Success) :=
  match lagrangeInterpolate combination prime with
  | .error e => .error e
  | .ok potentialSecret =>
    match foldME (consStep prime) combination shares with
    | .error e => .error e
    | .ok consistentShares =>
      if k ≤ consistentShares.length then
        .ok (some
          { secret := potentialSecret
            invalidShares :=
              shares.filter fun s => ¬ consistentShares.any fun cs => cs.x = s.x })
      else .ok none

/-- Variant 2 `findValidSharesAndReconstruct(data)` (lines 234-279) after the
container fields have been read: `prime` is `BigInt(data.prime)`, `k` is
`data.k` and `shares` is `data.shares` with each y decoded from its decimal
string.  There is no de-duplication step in this variant. -/
def findValidSharesAndReconstruct (prime : Int) (k : Nat) (shares : List Share) :
    Except JsErr Success :=
  if shares.length < k then .error .insufficientShares
  else searchLoop (processCombo shares k prime) (getCombinations shares k)

end V2

/-- Digit value of a character as JavaScript `parseInt(ch, base)` computes it
for a single character: `0-9`, then letters `a-z` / `A-Z` as 10..35; `none`
denotes NaN. -/
def jsDigitVal (c : Char) : Option Nat :=
  if c.toNat ≥ 48 ∧ c.toNat ≤ 57 then some (c.toNat - 48)
  else if c.toNat ≥ 97 ∧ c.toNat ≤ 122 then some (c.toNat - 87)
  else if c.toNat ≥ 65 ∧ c.toNat ≤ 90 then some (c.toNat - 55)
  else none

/-- JavaScript `parseInt(ch, base)` restricted to a single character: NaN
(`none`) when the character is not a digit of the base. -/
def jsParseIntChar (c : Char) (base : Nat) : Option Nat :=
  match jsDigitVal c with
  | none => none
  | some d => if d < base then some d else none

/-- Decimal digit string to natural number (used by the model of the JS
`BigInt(string)` conversion). -/
def decDigitsVal : List Char → Option Nat
  | [] => some 0
  | c :: cs =>
    if 48 ≤ c.toNat ∧ c.toNat ≤ 57 then
      match decDigitsVal cs with
      | none => none
      | some v => some (v * 10 + (c.toNat - 48))
      -- digits are processed least-significant first below; see radixVal
    else none

/-- Value of a digit list (most significant first) in a given base, `none` if
a character is not a digit of the base.  Mirrors ECMAScript
`StringToBigInt` digit accumulation. -/
def radixVal (base : Nat) : List Char → Option Nat
  | [] => some 0
  | c :: cs =>
    match jsParseIntChar c base, radixVal base cs with
    | some d, some v => some (d * base ^ cs.length + v)
    | _, _ => none

/-- Whitespace characters stripped by ECMAScript `StringToBigInt`. -/
def jsIsSpace (c : Char) : Bool :=
  c = ' ' ∨ c.toNat = 9 ∨ c.toNat = 10 ∨ c.toNat = 13 ∨ c.toNat = 11 ∨ c.toNat = 12

/-- Decode a non-empty digit list in the given radix, throwing on an empty
list or an out-of-alphabet character (used for the prefixed and signed forms
of `StringToBigInt`, which require at least one digit). -/
def radixDecode (base : Nat) (digits : List Char) : Except JsErr Int :=
  if digits = [] then .error .invalidDigits
  else
    match radixVal base digits with
    | some v => .ok (v : Int)
    | none => .error .invalidDigits

/-- Core of `StringToBigInt` on the already-trimmed character list: an empty
list denotes 0; `0x`/`0X`, `0o`/`0O`, `0b`/`0B` prefixes select a radix (no
sign allowed with a prefix); otherwise an optional single sign followed by
decimal digits; anything else is a `SyntaxError`. -/
def jsStrToBigIntCore : List Char → Except JsErr Int
  | [] => .ok 0
  | c1 :: rest1 =>
    if c1 = '0' then
      match rest1 with
      | [] => .ok 0
      | b :: rest =>
        if b = 'x' ∨ b = 'X' then radixDecode 16 rest
        else if b = 'o' ∨ b = 'O' then radixDecode 8 rest
        else if b = 'b' ∨ b = 'B' then radixDecode 2 rest
        else radixDecode 10 (c1 :: rest1)
    else if c1 = '+' then radixDecode 10 rest1
    else if c1 = '-' then
      match radixDecode 10 rest1 with
      | .ok v => .ok (-v)
      | .error e => .error e
    else radixDecode 10 (c1 :: rest1)

/-- Model of the JavaScript `BigInt(string)` conversion (ECMAScript
`StringToBigInt`): strip surrounding whitespace, then decode per
`jsStrToBigIntCore`. -/
def jsBigIntOfString (s : String) : Except JsErr Int :=
  jsStrToBigIntCore (((s.data.dropWhile jsIsSpace).reverse.dropWhile jsIsSpace).reverse)

/-- Loop of `parseBigInt` for a non-10 base (lines 24-33): walk the string
from its last character to its first, accumulating `digit * power` with
`power` multiplied by the base each step, throwing on the first character
whose `parseInt` is NaN. -/
def parseBigIntLoop (base : Nat) : List Char → Int → Int → Except JsErr Int
  | [], _, result => .ok result
  | c :: rest, power, result =>
    match jsParseIntChar c base with
    | none => .error .invalidDigits
    | some d => parseBigIntLoop base rest (power * base) (result + d * power)

/-- Variant 1 `parseBigInt(value, base)` (lines 14-35) for a numeric base:
rejects bases outside 2..36, delegates base 10 to `BigInt(value)`, and
otherwise decodes the string right-to-left digit by digit. -/
def parseBigInt (value : String) (base : Int) : Except JsErr Int :=
  if base < 2 ∨ 36 < base then .error .invalidBase
  else if base = 10 then jsBigIntOfString value
  else parseBigIntLoop base.toNat value.data.reverse 1 0

/-- Horner evaluation of an integer-coefficient polynomial, least significant
coefficient first.  This is the specification-side notion of the
degree-(k-1) polynomial that correct shares lie on. -/
def evalPoly (coeffs : List Int) (x : Int) : Int :=
  coeffs.foldr (fun c acc => c + x * acc) 0

/-- A share lies on the polynomial `coeffs` over `Z/pZ`: its y-coordinate is
congruent mod p to the polynomial's value at its x-coordinate. -/
def onPoly (p : Int) (coeffs : List Int) (s : Share) : Prop :=
  s.y % p = evalPoly coeffs s.x % p

instance (p : Int) (coeffs : List Int) (s : Share) : Decidable (onPoly p coeffs s) := by
  unfold onPoly; infer_instance

/-! Field-level definitions used by the Lagrange bridge for claim C1. -/

/-- The polynomial over `ZMod p` with the given integer coefficient list
(least significant first). -/
noncomputable def polyZ (p : Nat) (coeffs : List Int) : Polynomial (ZMod p) :=
  coeffs.foldr (fun c q => Polynomial.C (c : ZMod p) + Polynomial.X * q) 0

/-- The x-coordinate of the i-th point as a field element. -/
def xc (p : Nat) (pts : List Share) (i : Nat) : ZMod p :=
  (((pts.getD i ⟨0, 0⟩).x : Int) : ZMod p)

/-- The y-coordinate of the i-th point as a field element. -/
def yc (p : Nat) (pts : List Share) (i : Nat) : ZMod p :=
  (((pts.getD i ⟨0, 0⟩).y : Int) : ZMod p)

/-- The Lagrange numerator of row i at target 0 over the field. -/
def nprodZ (p : Nat) (pts : List Share) (i : Nat) : ZMod p :=
  ((Finset.range pts.length).erase i).prod fun j => 0 - xc p pts j

/-- The Lagrange denominator of row i over the field. -/
def dprodZ (p : Nat) (pts : List Share) (i : Nat) : ZMod p :=
  ((Finset.range pts.length).erase i).prod fun j => xc p pts i - xc p pts j

/-- The Lagrange factor product of row `i` at target `t`. -/
def lagTerm (p : Nat) (pts : List Share) (t : ZMod p) (i : Nat) : ZMod p :=
  yc p pts i * ((Finset.range pts.length).erase i).prod
    (fun j => (t - xc p pts j) * (xc p pts i - xc p pts j)⁻¹)

/-- Inner loop body of variant 1's `evaluatePolynomial` (definitionally the
lambda inside `V1.epTerm`). -/
def epTermStepV1 (x : Int) (points : List Share) (prime : Int) (i : Nat)
    (term : Int) (j : Nat) : Except JsErr Int :=
  if j = i then .ok term
  else
    match modInverse ((points.getD i ⟨0, 0⟩).x - (points.getD j ⟨0, 0⟩).x) prime with
    | .error e => .error e
    | .ok inv => .ok (jsMod (term * (x - (points.getD j ⟨0, 0⟩).x) * inv) prime)

/-- Inner loop body of variant 2's `evaluatePolynomial` (definitionally the
lambda inside `V2.epTerm`); no intermediate reduction. -/
def epTermStepV2 (shares : List Share) (prime : Int) (atX : Int) (i : Nat)
    (term : Int) (j : Nat) : Except JsErr Int :=
  if j = i then .ok term
  else
    match modInverse ((shares.getD i ⟨0, 0⟩).x - (shares.getD j ⟨0, 0⟩).x) prime with
    | .error e => .error e
    | .ok inv => .ok (term * (atX - (shares.getD j ⟨0, 0⟩).x) * inv)

/-! Generic lemmas about the loop combinators. -/

/-- A monadic fold errors whenever some list element makes its step fail on
every accumulator (the loop cannot get past it). -/
theorem foldME_error_of_mem {α β : Type} (f : α → β → Except JsErr α)
    (l : List β) (b : β) (hb : b ∈ l)
    (hfail : ∀ a : α, ∃ e, f a b = .error e) :
    ∀ a : α, ∃ e, foldME f a l = .error e := by
  induction l with
  | nil => cases hb
  | cons hd tl ih =>
    intro a
    rcases List.mem_cons.mp hb with rfl | hbtl
    · obtain ⟨e, he⟩ := hfail a
      exact ⟨e, by simp [foldME, he]⟩
    · cases hfa : f a hd with
      | error e => exact ⟨e, by simp [foldME, hfa]⟩
      | ok a2 =>
        obtain ⟨e, he⟩ := ih hbtl a2
        exact ⟨e, by simp [foldME, hfa, he]⟩

/-- If a monadic fold succeeds, the step succeeded on every prefix state; in
particular the fold over `l1 ++ b :: l2` yields an intermediate state before
`b`. -/
theorem foldME_ok_append {α β : Type} (f : α → β → Except JsErr α)
    (l1 l2 : List β) (a r : α)
    (h : foldME f a (l1 ++ l2) = .ok r) :
    ∃ m, foldME f a l1 = .ok m ∧ foldME f m l2 = .ok r := by
  induction l1 generalizing a with
  | nil => exact ⟨a, rfl, h⟩
  | cons hd tl ih =>
    simp only [List.cons_append, foldME] at h ⊢
    cases hfa : f a hd with
    | error e => rw [hfa] at h; cases h
    | ok a2 => rw [hfa] at h; exact ih a2 h

/-- The search loop skips every candidate that fails or is not accepted, and
returns the payload of the first accepted candidate. -/
theorem searchLoop_first {σ : Type} (process : List Share → Except JsErr (Option σ))
    (l1 l2 : List (List Share)) (c : List Share) (r : σ)
    (hskip : ∀ d ∈ l1, ∀ s : σ, process d ≠ .ok (some s))
    (hc : process c = .ok (some r)) :
    searchLoop process (l1 ++ c :: l2) = .ok r := by
  induction l1 with
  | nil => simp [searchLoop, hc]
  | cons hd tl ih =>
    have hnd := hskip hd (List.mem_cons_self hd tl)
    have hrest := ih fun d hd2 => hskip d (List.mem_cons_of_mem _ hd2)
    cases hp : process hd with
    | error e => simpa [searchLoop, hp] using hrest
    | ok o =>
      cases o with
      | none => simpa [searchLoop, hp] using hrest
      | some s => exact absurd hp (hnd s)

/-- If no candidate is accepted, the search loop reports the
no-consistent-subset error. -/
theorem searchLoop_all_fail {σ : Type} (process : List Share → Except JsErr (Option σ))
    (l : List (List Share))
    (hskip : ∀ d ∈ l, ∀ s : σ, process d ≠ .ok (some s)) :
    searchLoop process l = .error .noConsistentSubset := by
  induction l with
  | nil => rfl
  | cons hd tl ih =>
    have hnd := hskip hd (List.mem_cons_self hd tl)
    have hrest := ih fun d hd2 => hskip d (List.mem_cons_of_mem _ hd2)
    cases hp : process hd with
    | error e => simpa [searchLoop, hp] using hrest
    | ok o =>
      cases o with
      | none => simpa [searchLoop, hp] using hrest
      | some s => exact absurd hp (hnd s)

/-- Conversely, a successful search returns the payload of some accepted
candidate, and every candidate before it was skipped. -/
theorem searchLoop_ok {σ : Type} (process : List Share → Except JsErr (Option σ))
    (l : List (List Share)) (r : σ)
    (h : searchLoop process l = .ok r) :
    ∃ l1 c l2, l = l1 ++ c :: l2 ∧ process c = .ok (some r) ∧
      ∀ d ∈ l1, ∀ s : σ, process d ≠ .ok (some s) := by
  induction l with
  | nil => cases h
  | cons hd tl ih =>
    cases hp : process hd with
    | error e =>
      rw [searchLoop, hp] at h
      obtain ⟨l1, c, l2, h1, h2, h3⟩ := ih h
      refine ⟨hd :: l1, c, l2, by rw [h1]; rfl, h2, ?_⟩
      intro d hd2 s
      rcases List.mem_cons.mp hd2 with rfl | hd3
      · simp [hp]
      · exact h3 d hd3 s
    | ok o =>
      cases o with
      | none =>
        rw [searchLoop, hp] at h
        obtain ⟨l1, c, l2, h1, h2, h3⟩ := ih h
        refine ⟨hd :: l1, c, l2, by rw [h1]; rfl, h2, ?_⟩
        intro d hd2 s
        rcases List.mem_cons.mp hd2 with rfl | hd3
        · simp [hp]
        · exact h3 d hd3 s
      | some s =>
        rw [searchLoop, hp] at h
        obtain rfl : s = r := by cases h; rfl
        exact ⟨[], hd, tl, rfl, hp, by simp⟩

/-! Lemmas about truncated remainder and the extended Euclidean algorithm. -/

theorem jsMod_natAbs (a b : Int) : (jsMod a b).natAbs = a.natAbs % b.natAbs := by
  cases a <;> cases b <;>
    simp only [jsMod, Int.tmod, Int.natAbs_neg] <;> rfl

theorem natAbs_jsMod_lt (a b : Int) (h : a ≠ 0) :
    (jsMod b a).natAbs < a.natAbs := by
  rw [jsMod_natAbs]
  exact Nat.mod_lt _ (Int.natAbs_pos.mpr h)

theorem jsMod_emod (a b : Int) : jsMod a b % b = a % b := by
  have h := Int.tdiv_add_tmod a b
  calc jsMod a b % b = (a + b * -(a.tdiv b)) % b := by
        rw [jsMod]; rw [(by omega : a.tmod b = a - b * a.tdiv b)]; ring_nf
    _ = a % b := Int.add_mul_emod_self_left a b (-(a.tdiv b))

theorem jsMod_nonneg (a b : Int) (h : 0 ≤ a) : 0 ≤ jsMod a b :=
  Int.tmod_nonneg b h

theorem jsMod_lt_of_pos (a b : Int) (h : 0 < b) : jsMod a b < b :=
  Int.tmod_lt_of_pos a h

theorem neg_lt_jsMod (a b : Int) (h : 0 < b) : -b < jsMod a b := by
  have h1 : (jsMod a b).natAbs = a.natAbs % b.natAbs := jsMod_natAbs a b
  have h2 : a.natAbs % b.natAbs < b.natAbs := Nat.mod_lt _ (by omega)
  omega

/-- The normalisation `(x % m + m) % m` used by `modInverse` lands in
`[0, m)` for positive `m` and is congruent to `x`. -/
theorem jsNormalize_range (x m : Int) (hm : 0 < m) :
    0 ≤ jsMod (jsMod x m + m) m ∧ jsMod (jsMod x m + m) m < m ∧
      jsMod (jsMod x m + m) m % m = x % m := by
  have h1 : -m < jsMod x m := neg_lt_jsMod x m hm
  have h2 : 0 ≤ jsMod x m + m := by omega
  refine ⟨jsMod_nonneg _ _ h2, jsMod_lt_of_pos _ _ hm, ?_⟩
  rw [jsMod_emod, (by ring : jsMod x m + m = jsMod x m + m * 1),
    Int.add_mul_emod_self_left, jsMod_emod]

/-- Fuel irrelevance for `egcdAux`: any fuel above `a.natAbs` computes the
same value. -/
theorem egcdAux_fuel_irrel :
    ∀ fuel1 fuel2 a b, a.natAbs < fuel1 → a.natAbs < fuel2 →
      egcdAux fuel1 a b = egcdAux fuel2 a b := by
  intro fuel1
  induction fuel1 with
  | zero => intro fuel2 a b h1; omega
  | succ f ih =>
    intro fuel2 a b h1 h2
    cases fuel2 with
    | zero => omega
    | succ f2 =>
      by_cases ha : a = 0
      · simp [egcdAux, ha]
      · have hlt := natAbs_jsMod_lt a b ha
        simp only [egcdAux, ha, if_false]
        rw [ih f2 (jsMod b a) a (by omega) (by omega)]

theorem egcd_zero (b : Int) : egcd 0 b = (b, 0, 1) := rfl

theorem egcd_rec (a b : Int) (ha : a ≠ 0) :
    egcd a b =
      ((egcd (jsMod b a) a).1,
        (egcd (jsMod b a) a).2.2 - jsDiv b a * (egcd (jsMod b a) a).2.1,
        (egcd (jsMod b a) a).2.1) := by
  have hlt := natAbs_jsMod_lt a b ha
  show egcdAux (a.natAbs + 1) a b = _
  rw [egcdAux, if_neg ha]
  simp only [egcdAux_fuel_irrel a.natAbs ((jsMod b a).natAbs + 1) (jsMod b a) a hlt
    (by omega)]
  rfl

/-- Adding a multiple of the first argument to the second does not change the
gcd. -/
theorem int_gcd_add_mul (a b q : Int) : Int.gcd a (b + a * q) = Int.gcd a b := by
  apply Nat.dvd_antisymm
  · have h1 : (↑(Int.gcd a (b + a * q)) : ℤ) ∣ a := Int.gcd_dvd_left
    have h2 : (↑(Int.gcd a (b + a * q)) : ℤ) ∣ b + a * q := Int.gcd_dvd_right
    have h3 : (↑(Int.gcd a (b + a * q)) : ℤ) ∣ b := by
      have h4 := dvd_sub h2 (Dvd.dvd.mul_right h1 q)
      simpa using h4
    have h5 := Int.dvd_gcd h1 h3
    exact_mod_cast h5
  · have h1 : (↑(Int.gcd a b) : ℤ) ∣ a := Int.gcd_dvd_left
    have h2 : (↑(Int.gcd a b) : ℤ) ∣ b := Int.gcd_dvd_right
    have h3 : (↑(Int.gcd a b) : ℤ) ∣ b + a * q := dvd_add h2 (Dvd.dvd.mul_right h1 q)
    have h5 := Int.dvd_gcd h1 h3
    exact_mod_cast h5

/-- Bézout identity and gcd magnitude for the source's `egcd`, for all
integer inputs (the sign of the first component is not controlled). -/
theorem egcd_bezout (a b : Int) :
    a * (egcd a b).2.1 + b * (egcd a b).2.2 = (egcd a b).1 ∧
      ((egcd a b).1).natAbs = Int.gcd a b := by
  have H : ∀ n (a b : Int), a.natAbs = n →
      a * (egcd a b).2.1 + b * (egcd a b).2.2 = (egcd a b).1 ∧
        ((egcd a b).1).natAbs = Int.gcd a b := by
    intro n
    induction n using Nat.strong_induction_on with
    | _ n ih =>
      intro a b hn
      by_cases ha : a = 0
      · subst ha
        simp [egcd_zero, Int.gcd]
      · have hlt := natAbs_jsMod_lt a b ha
        obtain ⟨ih1, ih2⟩ := ih (jsMod b a).natAbs (by omega) (jsMod b a) a rfl
        rw [egcd_rec a b ha]
        constructor
        · have hdm : a * jsDiv b a + jsMod b a = b := Int.tdiv_add_tmod b a
          linear_combination ih1 - (egcd (jsMod b a) a).2.1 * hdm
        · rw [ih2]
          have hdm : jsMod b a = b - a * jsDiv b a := by
            have := Int.tdiv_add_tmod b a; unfold jsMod jsDiv at *; omega
          rw [hdm, Int.gcd_comm]
          rw [(by ring : b - a * jsDiv b a = b + a * -jsDiv b a)]
          exact int_gcd_add_mul a b (-(jsDiv b a))
  exact H a.natAbs a b rfl

/-- For nonnegative inputs every remainder in the Euclid chain is
nonnegative, so the first component of `egcd` is exactly the gcd. -/
theorem egcd_fst_of_nonneg (a b : Int) (ha : 0 ≤ a) (hb : 0 ≤ b) :
    (egcd a b).1 = Int.gcd a b := by
  have H : ∀ n (a b : Int), a.natAbs = n → 0 ≤ a → 0 ≤ b →
      (egcd a b).1 = Int.gcd a b := by
    intro n
    induction n using Nat.strong_induction_on with
    | _ n ih =>
      intro a b hn ha hb
      by_cases haz : a = 0
      · subst haz
        show b = ↑(Int.gcd 0 b)
        rw [Int.gcd_zero_left]
        exact (Int.natAbs_of_nonneg hb).symm
      · have hlt := natAbs_jsMod_lt a b haz
        rw [egcd_rec a b haz]
        have hmod : 0 ≤ jsMod b a := jsMod_nonneg b a hb
        rw [ih (jsMod b a).natAbs (by omega) (jsMod b a) a rfl hmod ha]
        have hdm : jsMod b a = b - a * jsDiv b a := by
          have := Int.tdiv_add_tmod b a; unfold jsMod jsDiv at *; omega
        rw [hdm, Int.gcd_comm]
        rw [(by ring : b - a * jsDiv b a = b + a * -jsDiv b a)]
        exact_mod_cast int_gcd_add_mul a b (-(jsDiv b a))
  exact H a.natAbs a b rfl ha hb

/-- Whenever `modInverse` succeeds its result is a genuine modular inverse in
`[0, m)` (for positive modulus), whatever the signs of the inputs. -/
theorem modInverse_ok_spec (a m b : Int) (hm : 0 < m)
    (h : modInverse a m = .ok b) :
    0 ≤ b ∧ b < m ∧ (a * b) % m = 1 % m := by
  unfold modInverse at h
  by_cases hg : (egcd a m).1 ≠ 1
  · simp [hg] at h
  · push_neg at hg
    simp only [hg, ne_eq, not_true_eq_false, if_false, Except.ok.injEq] at h
    obtain ⟨hb0, hbm, hbx⟩ := jsNormalize_range (egcd a m).2.1 m hm
    subst h
    refine ⟨hb0, hbm, ?_⟩
    obtain ⟨hbez, _⟩ := egcd_bezout a m
    rw [hg] at hbez
    have h1 : a * (egcd a m).2.1 ≡ 1 [ZMOD m] := by
      rw [Int.ModEq]
      have : a * (egcd a m).2.1 = 1 + m * -(egcd a m).2.2 := by linarith
      rw [this, (by ring : 1 + m * -(egcd a m).2.2 = 1 + m * -(egcd a m).2.2)]
      exact Int.add_mul_emod_self_left 1 m (-(egcd a m).2.2)
    have h2 : jsMod (jsMod (egcd a m).2.1 m + m) m ≡ (egcd a m).2.1 [ZMOD m] := hbx
    calc (a * jsMod (jsMod (egcd a m).2.1 m + m) m) % m
        = (a * (egcd a m).2.1) % m := (Int.ModEq.mul_left a h2)
      _ = 1 % m := h1

/-- When the gcd of the inputs is not 1, `modInverse` always throws. -/
theorem modInverse_error_of_gcd_ne_one (a m : Int) (h : Int.gcd a m ≠ 1) :
    modInverse a m = .error .noInverse := by
  unfold modInverse
  have hg : (egcd a m).1 ≠ 1 := by
    intro hone
    exact h (by rw [← (egcd_bezout a m).2, hone]; rfl)
  simp [hg]

/-- For a nonnegative first argument and coprime inputs, `modInverse`
succeeds. -/
theorem modInverse_ok_of_nonneg (a m : Int) (ha : 0 ≤ a) (hm : 0 ≤ m)
    (h : Int.gcd a m = 1) :
    modInverse a m = .ok (jsMod (jsMod (egcd a m).2.1 m + m) m) := by
  have hg : (egcd a m).1 = 1 := by
    rw [egcd_fst_of_nonneg a m ha hm, h]; simp
  unfold modInverse
  simp [hg]

/-- Claim C7: the as-stated contract fails for negative representatives: for
`a = -1, m = 3` we have `gcd(a, m) = 1`, yet `modInverse` throws the
no-inverse error, because `egcd` returns a negative gcd on negative input. -/
theorem c7_counterexample :
    Int.gcd (-1) 3 = 1 ∧ modInverse (-1) 3 = .error .noInverse := by
  constructor
  · decide
  · rfl

/-- Claim C7 (amended): for `0 ≤ a` and `m > 1`, `modInverse(a, m)` returns
the unique `b` in `[0, m)` with `a * b ≡ 1 (mod m)` when `gcd(a, m) = 1`,
and fails with the no-inverse error exactly when `gcd(a, m) ≠ 1`; for
negative `a` the call may spuriously throw even when the inverse exists. -/
theorem c7_theorem (a m : Int) (ha : 0 ≤ a) (hm : 1 < m) :
    (Int.gcd a m = 1 →
      ∃ b, modInverse a m = .ok b ∧ 0 ≤ b ∧ b < m ∧ (a * b) % m = 1 % m ∧
        ∀ c, 0 ≤ c → c < m → (a * c) % m = 1 % m → c = b) ∧
    (Int.gcd a m ≠ 1 → modInverse a m = .error .noInverse) := by
  constructor
  · intro hcop
    have hok := modInverse_ok_of_nonneg a m ha (by omega) hcop
    obtain ⟨hb0, hbm, hbcong⟩ := modInverse_ok_spec a m _ (by omega) hok
    refine ⟨_, hok, hb0, hbm, hbcong, ?_⟩
    intro c hc0 hcm hccong
    have h1 : a * c ≡ 1 [ZMOD m] := by rw [Int.ModEq]; exact hccong
    have h2 : a * jsMod (jsMod (egcd a m).2.1 m + m) m ≡ 1 [ZMOD m] := by
      rw [Int.ModEq]; exact hbcong
    set b := jsMod (jsMod (egcd a m).2.1 m + m) m with hbdef
    have h3 : c * (a * b) ≡ c * 1 [ZMOD m] := h2.mul_left c
    have h4 : a * c * b ≡ 1 * b [ZMOD m] := h1.mul_right b
    have h5 : c ≡ b [ZMOD m] := by
      calc c = c * 1 := by ring
        _ ≡ c * (a * b) [ZMOD m] := h3.symm
        _ = a * c * b := by ring
        _ ≡ 1 * b [ZMOD m] := h4
        _ = b := by ring
    have h6 : c % m = b % m := h5
    rwa [Int.emod_eq_of_lt hc0 hcm, Int.emod_eq_of_lt hb0 hbm] at h6
  · exact modInverse_error_of_gcd_ne_one a m

/-- Witness for C7 at `a = 3, m = 7`. -/
theorem c7_witness :
    ∃ b, modInverse 3 7 = .ok b ∧ 0 ≤ b ∧ b < 7 ∧ (3 * b) % 7 = 1 % 7 ∧
      ∀ c, 0 ≤ c → c < 7 → (3 * c) % 7 = 1 % 7 → c = b :=
  (c7_theorem 3 7 (by decide) (by decide)).1 (by decide)

/-- `modInverse` always throws when the modulus (with `|m| > 1`) divides the
argument: the gcd is `|m| ≠ 1`. -/
theorem modInverse_error_of_dvd (a m : Int) (hm : 1 < m.natAbs) (h : m ∣ a) :
    modInverse a m = .error .noInverse := by
  apply modInverse_error_of_gcd_ne_one
  have h2 : m.natAbs ∣ a.natAbs := Int.natAbs_dvd_natAbs.mpr h
  have h3 : Int.gcd a m = m.natAbs := Nat.gcd_eq_right h2
  omega

theorem jsMod_zero_left (b : Int) : jsMod 0 b = 0 := Int.zero_tmod b

theorem jsMod_eq_zero_of_dvd (a b : Int) (h : b ∣ a) : jsMod a b = 0 :=
  Int.tmod_eq_zero_of_dvd h

/-- Once the accumulated denominator hits exactly zero it stays zero for the
rest of the inner loop. -/
theorem ndStep_den_zero_stable (shares : List Share) (p : Int) (i : Nat)
    (l : List Nat) :
    ∀ nd : Int × Int, nd.2 = 0 → ((l.foldl (ndStep shares p i) nd).2 = 0) := by
  induction l with
  | nil => intro nd h; exact h
  | cons j tl ih =>
    intro nd h
    by_cases hji : j = i
    · simpa [List.foldl_cons, ndStep, hji] using ih nd h
    · have hstep : (ndStep shares p i nd j).2 = 0 := by
        simp only [ndStep, hji, if_false]
        rw [h, zero_mul, jsMod_zero_left]
      simpa [List.foldl_cons] using ih _ hstep

/-- If the inner loop visits some `j ≠ i` whose x-difference with row `i` is
divisible by the prime, the accumulated denominator ends at exactly zero. -/
theorem ndStep_den_zero_of_mem (shares : List Share) (p : Int) (i : Nat)
    (l : List Nat) (j : Nat) (hj : j ∈ l) (hji : j ≠ i)
    (hdvd : p ∣ ((shares.getD i ⟨0, 0⟩).x - (shares.getD j ⟨0, 0⟩).x)) :
    ∀ nd : Int × Int, ((l.foldl (ndStep shares p i) nd).2 = 0) := by
  induction l with
  | nil => cases hj
  | cons hd tl ih =>
    intro nd
    rcases List.mem_cons.mp hj with rfl | hjtl
    · have hstep : (ndStep shares p i nd j).2 = 0 := by
        simp only [ndStep, hji, if_false]
        exact jsMod_eq_zero_of_dvd _ _ (Dvd.dvd.mul_left hdvd nd.2)
      simpa [List.foldl_cons] using ndStep_den_zero_stable shares p i tl _ hstep
    · simp only [List.foldl_cons]
      exact ih hjtl _

/-- The denominator computed for row `i` is exactly zero whenever some other
in-range point has an x congruent to row i's x modulo the prime. -/
theorem numDenLoop_den_zero (shares : List Share) (p : Int) (i j : Nat)
    (hj : j < shares.length) (hji : j ≠ i)
    (hdvd : p ∣ ((shares.getD i ⟨0, 0⟩).x - (shares.getD j ⟨0, 0⟩).x)) :
    (numDenLoop shares p i).2 = 0 :=
  ndStep_den_zero_of_mem shares p i _ j (List.mem_range.mpr hj) hji hdvd (1, 1)

/-- Row `i` of variant 1's `reconstructSecret` throws the duplicate-abscissa
error on a zero denominator, whatever the accumulated secret. -/
theorem rsStep_error_of_den_zero (shares : List Share) (p : Int) (i : Nat)
    (h : (V1.numDen shares p i).2 = 0) :
    ∀ secret, V1.rsStep shares p secret i = .error .dupAbscissa := by
  intro secret
  unfold V1.rsStep
  simp [h]

/-- Row `i` of variant 2's `lagrangeInterpolate` throws through
`modInverse(0, prime)` on a zero denominator, whatever the accumulated
secret. -/
theorem liStep_error_of_den_zero (shares : List Share) (p : Int) (i : Nat)
    (hp : 1 < p.natAbs) (h : (V2.numDen shares p i).2 = 0) :
    ∀ secret, V2.liStep shares p secret i = .error .noInverse := by
  intro secret
  unfold V2.liStep
  simp [h, modInverse_error_of_dvd 0 p hp (dvd_zero p)]

/-- Variant 1's per-row term of `evaluatePolynomial` throws whenever some
other in-range point has an x congruent to row i's x mod the prime: the
per-factor `modInverse(xi - xj, prime)` has no inverse. -/
theorem v1_epTerm_error (x : Int) (points : List Share) (p : Int) (i j : Nat)
    (hp : 1 < p.natAbs) (hj : j < points.length) (hji : j ≠ i)
    (hdvd : p ∣ ((points.getD i ⟨0, 0⟩).x - (points.getD j ⟨0, 0⟩).x)) :
    ∃ e, V1.epTerm x points p i = .error e := by
  unfold V1.epTerm
  apply foldME_error_of_mem _ _ j (List.mem_range.mpr hj)
  intro term
  refine ⟨.noInverse, ?_⟩
  simp only [hji, if_false]
  rw [modInverse_error_of_dvd _ p hp hdvd]

/-- Variant 2's per-row term of `evaluatePolynomial`, same failure. -/
theorem v2_epTerm_error (points : List Share) (p : Int) (atX : Int) (i j : Nat)
    (hp : 1 < p.natAbs) (hj : j < points.length) (hji : j ≠ i)
    (hdvd : p ∣ ((points.getD i ⟨0, 0⟩).x - (points.getD j ⟨0, 0⟩).x)) :
    ∃ e, V2.epTerm points p atX i = .error e := by
  unfold V2.epTerm
  apply foldME_error_of_mem _ _ j (List.mem_range.mpr hj)
  intro term
  refine ⟨.noInverse, ?_⟩
  simp only [hji, if_false]
  rw [modInverse_error_of_dvd _ p hp hdvd]

/-- Claim C8: over any modulus with `p > 1` (in particular any prime), a list
of points containing two whose x-coordinates are congruent modulo p --
whether equal as integers or distinct integers coinciding mod p -- makes
interpolation at zero (variant 1 `reconstructSecret`, variant 2
`lagrangeInterpolate`) and point evaluation (both variants
`evaluatePolynomial`) fail with an error rather than return a field
element. -/
theorem c8_theorem (p : Int) (hp : 1 < p) (pts : List Share) (i j : Nat)
    (hi : i < pts.length) (hj : j < pts.length) (hij : i ≠ j)
    (hdvd : p ∣ ((pts.getD i ⟨0, 0⟩).x - (pts.getD j ⟨0, 0⟩).x)) :
    (∃ e, V1.reconstructSecret pts p = .error e) ∧
    (∀ x, ∃ e, V1.evaluatePolynomial x pts p = .error e) ∧
    (∃ e, V2.lagrangeInterpolate pts p = .error e) ∧
    (∀ atX, ∃ e, V2.evaluatePolynomial pts p atX = .error e) := by
  have hpabs : 1 < p.natAbs := by omega
  have hden : (numDenLoop pts p i).2 = 0 :=
    numDenLoop_den_zero pts p i j hj (Ne.symm hij) hdvd
  refine ⟨?_, ?_, ?_, ?_⟩
  · obtain ⟨e, he⟩ := foldME_error_of_mem (V1.rsStep pts p) (List.range pts.length) i
      (List.mem_range.mpr hi)
      (fun secret => ⟨.dupAbscissa, rsStep_error_of_den_zero pts p i hden secret⟩) 0
    exact ⟨e, by unfold V1.reconstructSecret; rw [he]⟩
  · intro x
    obtain ⟨e, he⟩ := foldME_error_of_mem (V1.epStep x pts p)
      (List.range pts.length) i (List.mem_range.mpr hi)
      (fun result => by
        obtain ⟨e, he⟩ := v1_epTerm_error x pts p i j hpabs hj (Ne.symm hij) hdvd
        exact ⟨e, by unfold V1.epStep; rw [he]⟩) 0
    exact ⟨e, by unfold V1.evaluatePolynomial; rw [he]⟩
  · obtain ⟨e, he⟩ := foldME_error_of_mem (V2.liStep pts p) (List.range pts.length) i
      (List.mem_range.mpr hi)
      (fun secret => ⟨.noInverse, liStep_error_of_den_zero pts p i hpabs hden secret⟩) 0
    exact ⟨e, by unfold V2.lagrangeInterpolate; rw [he]⟩
  · intro atX
    obtain ⟨e, he⟩ := foldME_error_of_mem (V2.epStep pts p atX)
      (List.range pts.length) i (List.mem_range.mpr hi)
      (fun result => by
        obtain ⟨e, he⟩ := v2_epTerm_error pts p atX i j hpabs hj (Ne.symm hij) hdvd
        exact ⟨e, by unfold V2.epStep; rw [he]⟩) 0
    exact ⟨e, by unfold V2.evaluatePolynomial; rw [he]⟩

/-- Witness for C8: the prime 257 with two points at integer-equal abscissa
x = 1, and two points at x = 2 and x = 259 which coincide mod 257. -/
theorem c8_witness :
    ((∃ e, V1.reconstructSecret [⟨1, 5⟩, ⟨1, 9⟩] 257 = .error e) ∧
      (∀ x, ∃ e, V1.evaluatePolynomial x [⟨1, 5⟩, ⟨1, 9⟩] 257 = .error e) ∧
      (∃ e, V2.lagrangeInterpolate [⟨1, 5⟩, ⟨1, 9⟩] 257 = .error e) ∧
      (∀ atX, ∃ e, V2.evaluatePolynomial [⟨1, 5⟩, ⟨1, 9⟩] 257 atX = .error e)) ∧
    ((∃ e, V1.reconstructSecret [⟨2, 5⟩, ⟨259, 9⟩] 257 = .error e) ∧
      (∀ x, ∃ e, V1.evaluatePolynomial x [⟨2, 5⟩, ⟨259, 9⟩] 257 = .error e) ∧
      (∃ e, V2.lagrangeInterpolate [⟨2, 5⟩, ⟨259, 9⟩] 257 = .error e) ∧
      (∀ atX, ∃ e, V2.evaluatePolynomial [⟨2, 5⟩, ⟨259, 9⟩] 257 atX = .error e)) :=
  ⟨c8_theorem 257 (by decide) [⟨1, 5⟩, ⟨1, 9⟩] 0 1 (by decide) (by decide)
      (by decide) (by decide),
    c8_theorem 257 (by decide) [⟨2, 5⟩, ⟨259, 9⟩] 0 1 (by decide) (by decide)
      (by decide) (by decide)⟩

/-! Claim C9: the subset enumerator. -/

/-- The DFS worker of variant 1 produces exactly the recursive enumeration of
variant 2, each subset prefixed by the accumulated combination. -/
theorem gcAux_eq_v2 (size : Nat) :
    ∀ (rem comb : List Share), comb.length ≤ size →
      V1.gcAux size rem comb =
        (V2.getCombinations rem (size - comb.length)).map (comb ++ ·) := by
  intro rem
  induction rem with
  | nil =>
    intro comb hle
    by_cases h : comb.length = size
    · simp [V1.gcAux, h, Nat.sub_self, V2.getCombinations]
    · have h2 : ∃ m, size - comb.length = m + 1 := ⟨size - comb.length - 1, by omega⟩
      obtain ⟨m, hm⟩ := h2
      simp [V1.gcAux, h, hm, V2.getCombinations]
  | cons a rest ih =>
    intro comb hle
    by_cases h : comb.length = size
    · simp [V1.gcAux, h, Nat.sub_self, V2.getCombinations]
    · have hlt : comb.length < size := by omega
      have hm : size - comb.length = (size - (comb.length + 1)) + 1 := by omega
      rw [V1.gcAux, if_neg h, hm, V2.getCombinations]
      rw [ih (comb ++ [a]) (by simpa using hlt), ih comb (by omega)]
      rw [List.map_append, List.map_map]
      congr 1
      · simp [Function.comp_def]
      · rw [(by omega : size - (comb.length + 1) + 1 = size - comb.length)]

/-- The two variants enumerate identical candidate lists. -/
theorem getCombinations_eq (items : List Share) (k : Nat) :
    V1.getCombinations items k = V2.getCombinations items k := by
  rw [V1.getCombinations, gcAux_eq_v2 k items [] (by simp)]
  simp

/-- Membership in the enumeration is exactly: a subsequence of the input of
the requested size (hence input order is preserved and no position is used
twice). -/
theorem mem_getCombinations (items : List Share) (k : Nat) (c : List Share) :
    c ∈ V2.getCombinations items k ↔ c.Sublist items ∧ c.length = k := by
  induction items generalizing k c with
  | nil =>
    cases k with
    | zero =>
      simp only [V2.getCombinations, List.mem_singleton]
      constructor
      · rintro rfl; exact ⟨List.nil_sublist [], rfl⟩
      · rintro ⟨hs, hl⟩; exact List.length_eq_zero.mp hl
    | succ k =>
      simp only [V2.getCombinations, List.not_mem_nil, false_iff, not_and]
      intro hs
      rw [List.sublist_nil.mp hs]
      simp
  | cons a rest ih =>
    cases k with
    | zero =>
      simp only [V2.getCombinations, List.mem_singleton]
      constructor
      · rintro rfl; exact ⟨List.nil_sublist _, rfl⟩
      · rintro ⟨hs, hl⟩; exact List.length_eq_zero.mp hl
    | succ k =>
      simp only [V2.getCombinations, List.mem_append, List.mem_map]
      constructor
      · rintro (⟨d, hd, rfl⟩ | hc)
        · obtain ⟨hs, hl⟩ := (ih k d).mp hd
          exact ⟨List.Sublist.cons₂ a hs, by simp [hl]⟩
        · obtain ⟨hs, hl⟩ := (ih (k + 1) c).mp hc
          exact ⟨hs.trans (List.sublist_cons_self a rest), hl⟩
      · rintro ⟨hs, hl⟩
        rcases List.sublist_cons_iff.mp hs with hs2 | ⟨r, rfl, hr⟩
        · exact Or.inr ((ih (k + 1) c).mpr ⟨hs2, hl⟩)
        · exact Or.inl ⟨r, (ih k r).mpr ⟨hr, by simpa using hl⟩, rfl⟩

/-- On duplicate-free input no subset is enumerated twice. -/
theorem getCombinations_nodup (items : List Share) (k : Nat)
    (h : items.Nodup) : (V2.getCombinations items k).Nodup := by
  induction items generalizing k with
  | nil => cases k <;> simp [V2.getCombinations]
  | cons a rest ih =>
    cases k with
    | zero => simp [V2.getCombinations]
    | succ k =>
      have hrest : rest.Nodup := (List.nodup_cons.mp h).2
      have hna : a ∉ rest := (List.nodup_cons.mp h).1
      rw [V2.getCombinations, List.nodup_append]
      refine ⟨List.Nodup.map List.cons_injective (ih k hrest), ih (k + 1) hrest, ?_⟩
      intro c hc1 hc2
      obtain ⟨d, _, rfl⟩ := List.mem_map.mp hc1
      have hs : (a :: d).Sublist rest := ((mem_getCombinations rest (k + 1) _).mp hc2).1
      exact hna (hs.subset (List.mem_cons_self a d))

/-- Claim C9: as stated the contract fails on inputs with a repeated
element: for `items = [(7,0), (7,0)]` and `k = 1` the single size-1 subset
`[(7,0)]` is produced twice, so subsets are not pairwise distinct. -/
theorem c9_counterexample :
    V1.getCombinations [⟨7, 0⟩, ⟨7, 0⟩] 1 = [[⟨7, 0⟩], [⟨7, 0⟩]] ∧
      ¬ (V1.getCombinations [⟨7, 0⟩, ⟨7, 0⟩] 1).Nodup ∧
      V2.getCombinations [⟨7, 0⟩, ⟨7, 0⟩] 1 = [[⟨7, 0⟩], [⟨7, 0⟩]] := by
  refine ⟨rfl, ?_, rfl⟩
  decide

/-- Claim C9 (amended): both variants enumerate the same candidate list; a
list belongs to `getCombinations(items, k)` exactly when it is a length-k
subsequence of `items` (so element order follows input order and no position
repeats); when `items` has no duplicate entries no subset appears twice;
fewer than k items yield no subsets; and `k = 0` yields exactly the empty
subset.  (On inputs with duplicate entries a subset can appear once per
choice of positions, as the counterexample shows.) -/
theorem c9_theorem (items : List Share) (k : Nat) :
    V1.getCombinations items k = V2.getCombinations items k ∧
    (∀ c, c ∈ V1.getCombinations items k ↔ (c.Sublist items ∧ c.length = k)) ∧
    (items.Nodup → (V1.getCombinations items k).Nodup) ∧
    (items.length < k → V1.getCombinations items k = []) ∧
    V1.getCombinations items 0 = [[]] := by
  have he := getCombinations_eq items k
  refine ⟨he, ?_, ?_, ?_, ?_⟩
  · intro c; rw [he]; exact mem_getCombinations items k c
  · intro h; rw [he]; exact getCombinations_nodup items k h
  · intro hlen
    rw [he]
    rw [List.eq_nil_iff_forall_not_mem]
    intro c hc
    obtain ⟨hs, hl⟩ := (mem_getCombinations items k c).mp hc
    have := hs.length_le
    omega
  · rw [getCombinations_eq items 0]
    cases items <;> rfl

/-- Witness for C9 on a concrete duplicate-free input. -/
theorem c9_witness :
    (([⟨1, 1⟩, ⟨2, 2⟩] : List Share) ∈
        V1.getCombinations [⟨1, 1⟩, ⟨2, 2⟩, ⟨3, 3⟩] 2 ↔
      ([⟨1, 1⟩, ⟨2, 2⟩] : List Share).Sublist [⟨1, 1⟩, ⟨2, 2⟩, ⟨3, 3⟩] ∧
        ([⟨1, 1⟩, ⟨2, 2⟩] : List Share).length = 2) ∧
    (V1.getCombinations [⟨1, 1⟩, ⟨2, 2⟩, ⟨3, 3⟩] 2).Nodup ∧
    V1.getCombinations [⟨1, 1⟩, ⟨2, 2⟩, ⟨3, 3⟩] 4 = [] :=
  ⟨(c9_theorem [⟨1, 1⟩, ⟨2, 2⟩, ⟨3, 3⟩] 2).2.1 [⟨1, 1⟩, ⟨2, 2⟩],
    (c9_theorem [⟨1, 1⟩, ⟨2, 2⟩, ⟨3, 3⟩] 2).2.2.1 (by decide),
    (c9_theorem [⟨1, 1⟩, ⟨2, 2⟩, ⟨3, 3⟩] 4).2.2.2.1 (by decide)⟩

/-! Claim C6: de-duplication by x. -/

theorem dedupByX_append_single (l : List Share) (s : Share) :
    V1.dedupByX (l ++ [s]) = V1.upsert (V1.dedupByX l) s := by
  rw [V1.dedupByX, List.foldl_append]
  rfl

/-- Replacing the share stored under an existing key does not change the key
list. -/
theorem upsert_keys_of_mem (acc : List Share) (s : Share)
    (h : acc.any fun t => t.x = s.x) :
    (V1.upsert acc s).map Share.x = acc.map Share.x := by
  rw [V1.upsert, if_pos h, List.map_map]
  apply List.map_congr_left
  intro t _
  by_cases hts : t.x = s.x <;> simp [hts]

theorem upsert_keys_of_not_mem (acc : List Share) (s : Share)
    (h : ¬ acc.any fun t => t.x = s.x) :
    (V1.upsert acc s).map Share.x = acc.map Share.x ++ [s.x] := by
  rw [V1.upsert, if_neg h, List.map_append]
  rfl

theorem any_key_iff (acc : List Share) (a : Int) :
    (acc.any fun t => t.x = a) = true ↔ a ∈ acc.map Share.x := by
  rw [List.any_eq_true]
  simp only [List.mem_map, decide_eq_true_eq]

/-- The retained key list after de-duplication has no duplicates. -/
theorem dedupByX_keys_nodup (l : List Share) :
    ((V1.dedupByX l).map Share.x).Nodup := by
  induction l using List.reverseRecOn with
  | nil => simp [V1.dedupByX]
  | append_singleton l s ih =>
    rw [dedupByX_append_single]
    by_cases h : (V1.dedupByX l).any fun t => t.x = s.x
    · rwa [upsert_keys_of_mem _ _ h]
    · rw [upsert_keys_of_not_mem _ _ h]
      have hna : s.x ∉ (V1.dedupByX l).map Share.x := by
        rw [← any_key_iff]
        simpa using h
      simp [List.nodup_append, ih, hna]

/-- De-duplication preserves the set of keys. -/
theorem dedupByX_keys_mem (l : List Share) (a : Int) :
    a ∈ (V1.dedupByX l).map Share.x ↔ a ∈ l.map Share.x := by
  induction l using List.reverseRecOn with
  | nil => simp [V1.dedupByX]
  | append_singleton l s ih =>
    rw [dedupByX_append_single]
    by_cases h : (V1.dedupByX l).any fun t => t.x = s.x
    · rw [upsert_keys_of_mem _ _ h, List.map_append]
      simp only [List.mem_append, List.map_cons, List.map_nil, List.mem_singleton]
      constructor
      · intro h2; exact Or.inl (ih.mp h2)
      · rintro (h2 | rfl)
        · exact ih.mpr h2
        · exact (any_key_iff _ _).mp h
    · rw [upsert_keys_of_not_mem _ _ h, List.map_append]
      simp only [List.mem_append, List.map_cons, List.map_nil, List.mem_singleton]
      rw [ih]

/-- Every retained share is one of the input shares. -/
theorem dedupByX_subset (l : List Share) :
    ∀ s, s ∈ V1.dedupByX l → s ∈ l := by
  induction l using List.reverseRecOn with
  | nil => simp [V1.dedupByX]
  | append_singleton l s ih =>
    intro t ht
    rw [dedupByX_append_single] at ht
    rw [V1.upsert] at ht
    by_cases h : (V1.dedupByX l).any fun u => u.x = s.x
    · rw [if_pos h] at ht
      obtain ⟨u, hu, he⟩ := List.mem_map.mp ht
      by_cases hux : u.x = s.x
      · simp only [hux, if_pos rfl] at he
        subst he
        simp
      · simp only [hux, if_false] at he
        subst he
        exact List.mem_append_left _ (ih u hu)
    · rw [if_neg h] at ht
      rcases List.mem_append.mp ht with h2 | h2
      · exact List.mem_append_left _ (ih t h2)
      · exact List.mem_append_right _ h2

/-- The number of retained shares is the number of distinct x-coordinates. -/
theorem dedupByX_length (l : List Share) :
    (V1.dedupByX l).length = (l.map Share.x).dedup.length := by
  have h1 : ((V1.dedupByX l).map Share.x).toFinset = (l.map Share.x).toFinset := by
    apply Finset.ext
    intro a
    simp only [List.mem_toFinset]
    exact dedupByX_keys_mem l a
  have h2 := List.toFinset_card_of_nodup (dedupByX_keys_nodup l)
  have h3 := List.card_toFinset (l.map Share.x)
  have h4 : ((V1.dedupByX l).map Share.x).length = (V1.dedupByX l).length :=
    List.length_map _ _
  have h5 : ((V1.dedupByX l).map Share.x).toFinset.card =
      (l.map Share.x).toFinset.card := by rw [h1]
  omega

/-- In a list whose keys are pairwise distinct, filtering by the key of a
member yields exactly that member. -/
theorem filter_key_of_nodup (acc : List Share) (hnd : (acc.map Share.x).Nodup)
    (u : Share) (hu : u ∈ acc) (a : Int) (hux : u.x = a) :
    acc.filter (fun t => t.x = a) = [u] := by
  induction acc with
  | nil => cases hu
  | cons hd tl ih =>
    simp only [List.map_cons, List.nodup_cons] at hnd
    rcases List.mem_cons.mp hu with rfl | hutl
    · have htl : tl.filter (fun t => decide (t.x = a)) = [] := by
        rw [List.filter_eq_nil_iff]
        intro t ht hta
        rw [decide_eq_true_eq] at hta
        exact hnd.1 (List.mem_map.mpr ⟨t, ht, by rw [hta, hux]⟩)
      rw [List.filter_cons]
      simp [hux, htl]
    · have hhd : ¬ hd.x = a := by
        intro hh
        exact hnd.1 (List.mem_map.mpr ⟨u, hutl, by rw [hux, hh]⟩)
      rw [List.filter_cons]
      simp only [hhd, decide_eq_false_iff_not.mpr hhd, Bool.false_eq_true, if_false]
      exact ih hnd.2 hutl

/-- Last-seen-wins: for every key, the share retained under that key is
exactly the last input share carrying it (JS `Map.set` overwrites). -/
theorem dedupByX_last_wins (l : List Share) (a : Int) :
    (V1.dedupByX l).filter (fun s => s.x = a) =
      ((l.filter (fun s => s.x = a)).getLast?).toList := by
  induction l using List.reverseRecOn with
  | nil => simp [V1.dedupByX]
  | append_singleton l s ih =>
    rw [dedupByX_append_single, List.filter_append]
    by_cases hsa : s.x = a
    · have hfs : List.filter (fun s => decide (s.x = a)) [s] = [s] := by simp [hsa]
      rw [hfs, List.getLast?_concat]
      rw [V1.upsert]
      by_cases h : (V1.dedupByX l).any fun t => t.x = s.x
      · rw [if_pos h]
        obtain ⟨u, hu, hux⟩ := List.any_eq_true.mp h
        rw [decide_eq_true_eq] at hux
        have hmap : List.filter (fun t => decide (t.x = a))
            ((V1.dedupByX l).map fun t => if t.x = s.x then s else t) = [s] := by
          have hfe : (V1.dedupByX l).filter (fun t => t.x = a) = [u] :=
            filter_key_of_nodup (V1.dedupByX l) (dedupByX_keys_nodup l) u hu a
              (by rw [hux, hsa])
          rw [List.filter_map]
          have hfil : (V1.dedupByX l).filter
              ((fun t => decide (t.x = a)) ∘ fun t => if t.x = s.x then s else t) =
              (V1.dedupByX l).filter (fun t => decide (t.x = a)) := by
            apply List.filter_congr
            intro t _
            by_cases hts : t.x = s.x
            · simp [hts, hsa, Function.comp]
            · simp [hts, Function.comp]
          rw [hfil, hfe]
          have hus : (if u.x = s.x then s else u) = s := by simp [hux]
          simp [hus]
        rw [hmap]
        rfl
      · rw [if_neg h]
        have hempty : (V1.dedupByX l).filter (fun t => decide (t.x = a)) = [] := by
          rw [List.filter_eq_nil_iff]
          intro t ht hta
          rw [decide_eq_true_eq] at hta
          apply h
          rw [List.any_eq_true]
          exact ⟨t, ht, by simp [hta, hsa]⟩
        rw [List.filter_append, hempty, hfs]
        simp
    · have hfs : List.filter (fun t => decide (t.x = a)) [s] = [] := by simp [hsa]
      rw [hfs, List.append_nil]
      rw [V1.upsert]
      by_cases h : (V1.dedupByX l).any fun t => t.x = s.x
      · rw [if_pos h]
        have hres : List.filter (fun t => decide (t.x = a))
            ((V1.dedupByX l).map fun t => if t.x = s.x then s else t) =
            (V1.dedupByX l).filter (fun t => decide (t.x = a)) := by
          rw [List.filter_map]
          have hfil : (V1.dedupByX l).filter
              ((fun t => decide (t.x = a)) ∘ fun t => if t.x = s.x then s else t) =
              (V1.dedupByX l).filter (fun t => decide (t.x = a)) := by
            apply List.filter_congr
            intro t _
            by_cases hts : t.x = s.x
            · have hsna : ¬ s.x = a := hsa
              have htna : ¬ t.x = a := by rw [hts]; exact hsna
              simp [hts, hsna, htna, Function.comp]
            · simp [hts, Function.comp]
          rw [hfil]
          have hnone : ∀ t ∈ (V1.dedupByX l).filter (fun t => decide (t.x = a)),
              (if t.x = s.x then s else t) = t := by
            intro t ht
            have hta : t.x = a := by simpa using List.of_mem_filter ht
            have hne : t.x ≠ s.x := by rw [hta]; intro h2; exact hsa h2.symm
            simp [hne]
          calc ((V1.dedupByX l).filter fun t => decide (t.x = a)).map
                (fun t => if t.x = s.x then s else t)
              = ((V1.dedupByX l).filter fun t => decide (t.x = a)).map id :=
                List.map_congr_left hnone
            _ = (V1.dedupByX l).filter (fun t => decide (t.x = a)) := List.map_id _
        rw [hres, ih]
      · rw [if_neg h, List.filter_append, hfs, List.append_nil, ih]

/-- When the input already has pairwise-distinct x-coordinates,
de-duplication is the identity. -/
theorem dedupByX_of_nodup (l : List Share) (h : (l.map Share.x).Nodup) :
    V1.dedupByX l = l := by
  induction l using List.reverseRecOn with
  | nil => rfl
  | append_singleton l s ih =>
    rw [List.map_append, List.nodup_append] at h
    obtain ⟨h1, _, h3⟩ := h
    rw [dedupByX_append_single, ih h1, V1.upsert, if_neg]
    intro hany
    obtain ⟨t, ht, htx⟩ := List.any_eq_true.mp hany
    rw [decide_eq_true_eq] at htx
    exact h3 (List.mem_map.mpr ⟨t, ht, htx⟩) (by simp)

/-- Variant 2's `lagrangeInterpolate` always throws when two points have
x-coordinates congruent modulo the prime (with `|prime| > 1`). -/
theorem v2_lagrange_error_of_congr (p : Int) (hp : 1 < p.natAbs)
    (pts : List Share) (i j : Nat) (hi : i < pts.length) (hj : j < pts.length)
    (hij : i ≠ j)
    (hdvd : p ∣ ((pts.getD i ⟨0, 0⟩).x - (pts.getD j ⟨0, 0⟩).x)) :
    ∃ e, V2.lagrangeInterpolate pts p = .error e := by
  have hden : (numDenLoop pts p i).2 = 0 :=
    numDenLoop_den_zero pts p i j hj (Ne.symm hij) hdvd
  obtain ⟨e, he⟩ := foldME_error_of_mem (V2.liStep pts p) (List.range pts.length) i
    (List.mem_range.mpr hi)
    (fun secret => ⟨.noInverse, liStep_error_of_den_zero pts p i hp hden secret⟩) 0
  exact ⟨e, by unfold V2.lagrangeInterpolate; rw [he]⟩

/-- Pigeonhole: a size-k subsequence of a share list with fewer than k
distinct x-coordinates must repeat an x-coordinate. -/
theorem combo_has_dup (shares c : List Share) (k : Nat)
    (hs : c.Sublist shares) (hl : c.length = k)
    (hdist : (shares.map Share.x).dedup.length < k) :
    ∃ i j, i < c.length ∧ j < c.length ∧ i ≠ j ∧
      (c.getD i ⟨0, 0⟩).x = (c.getD j ⟨0, 0⟩).x := by
  have hnn : ¬ (c.map Share.x).Nodup := by
    intro hnd
    have hsub : (c.map Share.x) ⊆ (shares.map Share.x) := (hs.map Share.x).subset
    have h1 : (c.map Share.x).toFinset.card = (c.map Share.x).length :=
      List.toFinset_card_of_nodup hnd
    have h2 : (c.map Share.x).toFinset ⊆ (shares.map Share.x).toFinset := by
      intro a ha
      rw [List.mem_toFinset] at ha ⊢
      exact hsub ha
    have h3 := Finset.card_le_card h2
    have h4 := List.card_toFinset (shares.map Share.x)
    have h5 : (c.map Share.x).length = k := by rw [List.length_map]; exact hl
    omega
  rw [List.nodup_iff_injective_get, Function.not_injective_iff] at hnn
  obtain ⟨i, j, hfeq, hne⟩ := hnn
  have hil : i.val < c.length := by have := i.isLt; simpa using this
  have hjl : j.val < c.length := by have := j.isLt; simpa using this
  refine ⟨i.val, j.val, hil, hjl, ?_, ?_⟩
  · intro hv
    exact hne (Fin.ext hv)
  · rw [List.getD_eq_getElem c ⟨0, 0⟩ hil, List.getD_eq_getElem c ⟨0, 0⟩ hjl]
    have hgi := List.get_map Share.x (l := c) (n := i)
    have hgj := List.get_map Share.x (l := c) (n := j)
    rw [hgi, hgj] at hfeq
    simpa using hfeq

/-- Claim C5: on variant 2 the as-stated behaviour fails: two shares with the
same x and `k = 2` pass the raw-count check (no de-duplication happens), the
single candidate throws in interpolation, and the run ends with the
no-consistent-subset error instead of the insufficient-shares error. -/
theorem c5_counterexample :
    V2.findValidSharesAndReconstruct 257 2 [⟨1, 3⟩, ⟨1, 5⟩] =
      .error .noConsistentSubset ∧
    2 ≤ ([⟨1, 3⟩, ⟨1, 5⟩] : List Share).length ∧
    (([⟨1, 3⟩, ⟨1, 5⟩] : List Share).map Share.x).dedup.length < 2 := by
  refine ⟨rfl, by decide, by decide⟩

/-- Claim C5 (amended): with n2 the number of distinct x-coordinates and
n2 < k, neither variant ever returns a secret or crashes; variant 1 reports
the insufficient-shares error when even the raw count is below k and the
insufficient-unique-shares error otherwise; variant 2 (which never
de-duplicates) reports insufficient-shares only on a raw count below k, and
otherwise exhausts its candidates (each containing a repeated x) and reports
the no-consistent-subset error (for any modulus with `p > 1`, in particular
any prime). -/
theorem c5_theorem (p : Int) (k : Nat) (shares : List Share)
    (hdist : (shares.map Share.x).dedup.length < k) :
    (shares.length < k →
      V1.findValidSharesAndReconstruct k shares = .error .insufficientShares ∧
      V2.findValidSharesAndReconstruct p k shares = .error .insufficientShares) ∧
    (k ≤ shares.length →
      V1.findValidSharesAndReconstruct k shares = .error .insufficientUnique ∧
      (1 < p →
        V2.findValidSharesAndReconstruct p k shares = .error .noConsistentSubset)) := by
  constructor
  · intro hlen
    constructor
    · unfold V1.findValidSharesAndReconstruct
      rw [if_pos hlen]
    · unfold V2.findValidSharesAndReconstruct
      rw [if_pos hlen]
  · intro hlen
    constructor
    · unfold V1.findValidSharesAndReconstruct
      rw [if_neg (by omega)]
      have hlt : (V1.dedupByX shares).length < k := by
        rw [dedupByX_length]; exact hdist
      simp [hlt]
    · intro hp
      unfold V2.findValidSharesAndReconstruct
      rw [if_neg (by omega)]
      apply searchLoop_all_fail
      intro c hc s hok
      obtain ⟨hs, hl⟩ := (mem_getCombinations shares k c).mp hc
      obtain ⟨i, j, hi, hj, hij, heq⟩ := combo_has_dup shares c k hs hl hdist
      obtain ⟨e, he⟩ := v2_lagrange_error_of_congr p (by omega) c i j hi hj hij
        (by rw [heq]; simp)
      unfold V2.processCombo at hok
      rw [he] at hok
      cases hok

/-- Witness for C5 at `k = 2` with two shares at x = 1 (variant 1 branch)
and a single share (raw-count branch), prime 257. -/
theorem c5_witness :
    (([⟨1, 3⟩] : List Share).length < 2 →
      V1.findValidSharesAndReconstruct 2 [⟨1, 3⟩] = .error .insufficientShares ∧
      V2.findValidSharesAndReconstruct 257 2 [⟨1, 3⟩] = .error .insufficientShares) ∧
    (2 ≤ ([⟨1, 3⟩, ⟨1, 5⟩] : List Share).length →
      V1.findValidSharesAndReconstruct 2 [⟨1, 3⟩, ⟨1, 5⟩] = .error .insufficientUnique ∧
      (1 < (257 : Int) →
        V2.findValidSharesAndReconstruct 257 2 [⟨1, 3⟩, ⟨1, 5⟩] =
          .error .noConsistentSubset)) :=
  ⟨(c5_theorem 257 2 [⟨1, 3⟩] (by decide)).1,
    (c5_theorem 257 2 [⟨1, 3⟩, ⟨1, 5⟩] (by decide)).2⟩

/-- Claim C6: variant 2 performs no de-duplication before candidate
enumeration: with input shares at x = 1, 3, 1 and k = 2 the enumerated
candidates include the pair of the two x = 1 shares (a repeated x inside a
candidate subset), and the run silently drops the share (1, 9) from both
returned partitions (it is in neither the consistent set nor
`invalidShares`). -/
theorem c6_counterexample :
    V2.getCombinations [⟨1, 3⟩, ⟨3, 7⟩, ⟨1, 9⟩] 2 =
      [[⟨1, 3⟩, ⟨3, 7⟩], [⟨1, 3⟩, ⟨1, 9⟩], [⟨3, 7⟩, ⟨1, 9⟩]] ∧
    ¬ (([⟨1, 3⟩, ⟨1, 9⟩] : List Share).map Share.x).Nodup ∧
    V2.findValidSharesAndReconstruct 257 2 [⟨1, 3⟩, ⟨3, 7⟩, ⟨1, 9⟩] =
      .ok ⟨1, []⟩ := by
  refine ⟨rfl, by decide, rfl⟩

/-- Claim C6 (amended): variant 1 does collapse shares by x before
enumeration: the retained shares have pairwise-distinct x-coordinates, the
retained x-set equals the input x-set, every retained share is an input
share, and for each x the retained share is exactly the last input share
with that x (JS `Map` overwrite semantics, last-seen wins).  Variant 2
performs no de-duplication: it enumerates exactly the size-k subsequences of
the raw input list, so a candidate subset can carry the same x twice. -/
theorem c6_theorem (shares : List Share) :
    ((V1.dedupByX shares).map Share.x).Nodup ∧
    (∀ a, a ∈ (V1.dedupByX shares).map Share.x ↔ a ∈ shares.map Share.x) ∧
    (∀ s, s ∈ V1.dedupByX shares → s ∈ shares) ∧
    (∀ a : Int, (V1.dedupByX shares).filter (fun s => s.x = a) =
      ((shares.filter (fun s => s.x = a)).getLast?).toList) ∧
    (∀ k c, c ∈ V2.getCombinations shares k ↔ (c.Sublist shares ∧ c.length = k)) :=
  ⟨dedupByX_keys_nodup shares, dedupByX_keys_mem shares, dedupByX_subset shares,
    dedupByX_last_wins shares, fun k c => mem_getCombinations shares k c⟩

/-! Claims C3 and C4: structure of the candidate search. -/

/-- A fold whose step can only extend its accumulator list produces an
extension of the initial list. -/
theorem foldME_extends {β : Type} (f : List Share → β → Except JsErr (List Share))
    (hf : ∀ acc b out, f acc b = .ok out → ∃ s, out = acc ++ s) :
    ∀ (l : List β) (acc out : List Share),
      foldME f acc l = .ok out → ∃ s, out = acc ++ s := by
  intro l
  induction l with
  | nil =>
    intro acc out h
    cases h
    exact ⟨[], by simp⟩
  | cons hd tl ih =>
    intro acc out h
    rw [foldME] at h
    cases hstep : f acc hd with
    | error e => rw [hstep] at h; cases h
    | ok acc2 =>
      rw [hstep] at h
      obtain ⟨s1, hs1⟩ := hf acc hd acc2 hstep
      obtain ⟨s2, hs2⟩ := ih acc2 out h
      exact ⟨s1 ++ s2, by rw [hs2, hs1, List.append_assoc]⟩

theorem v1_consStep_extends (combo : List Share) (p : Int) :
    ∀ acc b out, V1.consStep combo p acc b = .ok out → ∃ s, out = acc ++ s := by
  intro acc b out h
  unfold V1.consStep at h
  cases hev : V1.evaluatePolynomial b.x combo p with
  | error e => rw [hev] at h; cases h
  | ok py =>
    rw [hev] at h
    have h2 : Except.ok (if py = b.y then acc ++ [b] else acc) =
        (Except.ok out : Except JsErr (List Share)) := h
    by_cases hpy : py = b.y
    · rw [if_pos hpy] at h2
      cases h2
      exact ⟨[b], rfl⟩
    · rw [if_neg hpy] at h2
      cases h2
      exact ⟨[], by simp⟩

theorem v2_consStep_extends (p : Int) :
    ∀ acc b out, V2.consStep p acc b = .ok out → ∃ s, out = acc ++ s := by
  intro acc b out h
  unfold V2.consStep at h
  by_cases hmem : acc.any fun s => s.x = b.x
  · rw [if_pos hmem] at h
    cases h
    exact ⟨[], by simp⟩
  · rw [if_neg hmem] at h
    cases hev : V2.evaluatePolynomial acc p b.x with
    | error e => rw [hev] at h; cases h
    | ok ry =>
      rw [hev] at h
      have h2 : Except.ok (if b.y = ry then acc ++ [b] else acc) =
          (Except.ok out : Except JsErr (List Share)) := h
      by_cases hry : b.y = ry
      · rw [if_pos hry] at h2
        cases h2
        exact ⟨[b], rfl⟩
      · rw [if_neg hry] at h2
        cases h2
        exact ⟨[], by simp⟩

/-- Unfolding of variant 1's per-candidate processing once the interpolation
and the consistency loop are known to succeed. -/
theorem v1_processCombo_eq (us : List Share) (k : Nat) (p : Int)
    (combo : List Share) (s0 : Int) (hrs : V1.reconstructSecret combo p = .ok s0)
    (consistent : List Share)
    (hfold : foldME (V1.consStep combo p) combo
      (us.filter fun s => ¬ combo.any fun cs => cs.x = s.x) = .ok consistent) :
    V1.processCombo us k p combo =
      if k ≤ consistent.length then
        match V1.reconstructSecret (consistent.take k) p with
        | .error e => .error e
        | .ok finalSecret =>
          .ok (some
            { secret := finalSecret
              validShares := consistent
              invalidShares :=
                us.filter fun s => ¬ consistent.any fun cs => cs.x = s.x })
      else .ok none := by
  unfold V1.processCombo
  simp only [hrs, hfold]

/-- Unfolding of variant 2's per-candidate processing once the interpolation
and the consistency loop are known to succeed. -/
theorem v2_processCombo_eq (shares : List Share) (k : Nat) (p : Int)
    (combo : List Share) (s0 : Int)
    (hli : V2.lagrangeInterpolate combo p = .ok s0)
    (consistent : List Share)
    (hfold : foldME (V2.consStep p) combo shares = .ok consistent) :
    V2.processCombo shares k p combo =
      if k ≤ consistent.length then
        .ok (some
          { secret := s0
            invalidShares :=
              shares.filter fun s => ¬ consistent.any fun cs => cs.x = s.x })
      else .ok none := by
  unfold V2.processCombo
  simp only [hli, hfold]

/-- The consistent set starts as the candidate itself, so a fully processed
size-k candidate always passes the `length >= k` acceptance test: variant
1's per-candidate processing never completes with a rejection. -/
theorem v1_processCombo_not_none (us : List Share) (k : Nat) (p : Int)
    (combo : List Share) (hk : k ≤ combo.length) :
    V1.processCombo us k p combo ≠ .ok none := by
  intro h
  cases hrs : V1.reconstructSecret combo p with
  | error e =>
    unfold V1.processCombo at h
    rw [hrs] at h
    cases h
  | ok s0 =>
    cases hfold : foldME (V1.consStep combo p) combo
        (us.filter fun s => ¬ combo.any fun cs => cs.x = s.x) with
    | error e =>
      unfold V1.processCombo at h
      rw [hrs] at h
      have h2 : (match foldME (V1.consStep combo p) combo
          (us.filter fun s => ¬ combo.any fun cs => cs.x = s.x) with
        | .error e => (.error e : Except JsErr (Option V1.Success))
        | .ok consistentShares =>
          if k ≤ consistentShares.length then
            match V1.reconstructSecret (consistentShares.take k) p with
            | .error e => .error e
            | .ok finalSecret =>
              .ok (some
                { secret := finalSecret
                  validShares := consistentShares
                  invalidShares :=
                    us.filter fun s => ¬ consistentShares.any fun cs => cs.x = s.x })
          else .ok none) = .ok none := h
      rw [hfold] at h2
      cases h2
    | ok consistent =>
      rw [v1_processCombo_eq us k p combo s0 hrs consistent hfold] at h
      obtain ⟨suf, hsuf⟩ := foldME_extends (V1.consStep combo p)
        (v1_consStep_extends combo p) _ combo consistent hfold
      have hlen : k ≤ consistent.length := by
        rw [hsuf, List.length_append]
        omega
      rw [if_pos hlen] at h
      cases hfin : V1.reconstructSecret (consistent.take k) p with
      | error e => rw [hfin] at h; cases h
      | ok fs => rw [hfin] at h; cases h

/-- Same for variant 2. -/
theorem v2_processCombo_not_none (shares : List Share) (k : Nat) (p : Int)
    (combo : List Share) (hk : k ≤ combo.length) :
    V2.processCombo shares k p combo ≠ .ok none := by
  intro h
  cases hli : V2.lagrangeInterpolate combo p with
  | error e =>
    unfold V2.processCombo at h
    rw [hli] at h
    cases h
  | ok s0 =>
    cases hfold : foldME (V2.consStep p) combo shares with
    | error e =>
      unfold V2.processCombo at h
      rw [hli] at h
      have h2 : (match foldME (V2.consStep p) combo shares with
        | .error e => (.error e : Except JsErr (Option V2.Success))
        | .ok consistentShares =>
          if k ≤ consistentShares.length then
            .ok (some
              { secret := s0
                invalidShares :=
                  shares.filter fun s => ¬ consistentShares.any fun cs => cs.x = s.x })
          else .ok none) = .ok none := h
      rw [hfold] at h2
      cases h2
    | ok consistent =>
      rw [v2_processCombo_eq shares k p combo s0 hli consistent hfold] at h
      obtain ⟨suf, hsuf⟩ := foldME_extends (V2.consStep p)
        (v2_consStep_extends p) _ combo consistent hfold
      have hlen : k ≤ consistent.length := by
        rw [hsuf, List.length_append]
        omega
      rw [if_pos hlen] at h
      cases h

/-- If any candidate is accepted, the search loop succeeds. -/
theorem searchLoop_isOk_of_mem {σ : Type}
    (process : List Share → Except JsErr (Option σ)) (l : List (List Share))
    (c : List Share) (hc : c ∈ l) (s : σ) (hok : process c = .ok (some s)) :
    ∃ r, searchLoop process l = .ok r := by
  induction l with
  | nil => cases hc
  | cons hd tl ih =>
    rcases List.mem_cons.mp hc with rfl | hctl
    · exact ⟨s, by rw [searchLoop, hok]⟩
    · cases hp : process hd with
      | error e =>
        obtain ⟨r, hr⟩ := ih hctl
        exact ⟨r, by rw [searchLoop, hp]; exact hr⟩
      | ok o =>
        cases o with
        | none =>
          obtain ⟨r, hr⟩ := ih hctl
          exact ⟨r, by rw [searchLoop, hp]; exact hr⟩
        | some s2 => exact ⟨s2, by rw [searchLoop, hp]⟩

/-- With both length checks passed, variant 1's entry point is exactly the
candidate search over the de-duplicated shares with the hardcoded
prime 257. -/
theorem v1_classifier_eq_searchLoop (k : Nat) (shares : List Share)
    (hraw : k ≤ shares.length) (hkd : k ≤ (V1.dedupByX shares).length) :
    V1.findValidSharesAndReconstruct k shares =
      searchLoop (V1.processCombo (V1.dedupByX shares) k 257)
        (V1.getCombinations (V1.dedupByX shares) k) := by
  unfold V1.findValidSharesAndReconstruct
  rw [if_neg (by omega)]
  have h2 : ¬ (V1.dedupByX shares).length < k := by omega
  simp [h2]

theorem v2_classifier_eq_searchLoop (p : Int) (k : Nat) (shares : List Share)
    (hraw : k ≤ shares.length) :
    V2.findValidSharesAndReconstruct p k shares =
      searchLoop (V2.processCombo shares k p) (V2.getCombinations shares k) := by
  unfold V2.findValidSharesAndReconstruct
  rw [if_neg (by omega)]

/-- Claim C3: as stated the claim fails: with the four shares
(1,2), (2,3), (4,5), (5,6) -- all on the line y = x + 1 -- and k = 3, the
first enumerated candidate interpolates without error (to 1), yet the run
ends in the no-consistent-subset failure branch, because the verification
loop (not the interpolation) throws inside every candidate's `try` block. -/
theorem c3_counterexample :
    (V1.getCombinations (V1.dedupByX [⟨1, 2⟩, ⟨2, 3⟩, ⟨4, 5⟩, ⟨5, 6⟩]) 3).head? =
      some [⟨1, 2⟩, ⟨2, 3⟩, ⟨4, 5⟩] ∧
    V1.reconstructSecret [⟨1, 2⟩, ⟨2, 3⟩, ⟨4, 5⟩] 257 = .ok 1 ∧
    V1.findValidSharesAndReconstruct 3 [⟨1, 2⟩, ⟨2, 3⟩, ⟨4, 5⟩, ⟨5, 6⟩] =
      .error .noConsistentSubset :=
  ⟨rfl, rfl, rfl⟩

/-- Claim C3 (amended): the consistent set is initialised to the size-k
candidate itself, so a fully processed candidate always has at least k
consistent shares and is never rejected by the acceptance test; the
classifier returns success on the first candidate whose whole `try` block
(interpolation and verification evaluations) raises no error, with a valid
set of at least k shares; and the failure branch is reachable only when
every candidate's processing throws (in the interpolation or in the
verification loop). -/
theorem c3_theorem (k : Nat) (shares : List Share) (hraw : k ≤ shares.length)
    (hkd : k ≤ (V1.dedupByX shares).length) :
    (∀ c ∈ V1.getCombinations (V1.dedupByX shares) k,
      V1.processCombo (V1.dedupByX shares) k 257 c ≠ .ok none) ∧
    (∀ l1 c l2 r, V1.getCombinations (V1.dedupByX shares) k = l1 ++ c :: l2 →
      (∀ d ∈ l1, ∃ e, V1.processCombo (V1.dedupByX shares) k 257 d = .error e) →
      V1.processCombo (V1.dedupByX shares) k 257 c = .ok (some r) →
      V1.findValidSharesAndReconstruct k shares = .ok r ∧
        k ≤ r.validShares.length) ∧
    (V1.findValidSharesAndReconstruct k shares = .error .noConsistentSubset →
      ∀ c ∈ V1.getCombinations (V1.dedupByX shares) k,
        ∃ e, V1.processCombo (V1.dedupByX shares) k 257 c = .error e) := by
  have hnn : ∀ c ∈ V1.getCombinations (V1.dedupByX shares) k,
      V1.processCombo (V1.dedupByX shares) k 257 c ≠ .ok none := by
    intro c hc
    have hcl : c.length = k :=
      ((mem_getCombinations _ k c).mp ((getCombinations_eq _ k) ▸ hc)).2
    exact v1_processCombo_not_none _ k 257 c (by omega)
  refine ⟨hnn, ?_, ?_⟩
  · intro l1 c l2 r hsplit hfail hacc
    rw [v1_classifier_eq_searchLoop k shares hraw hkd, hsplit]
    constructor
    · apply searchLoop_first
      · intro d hd s
        obtain ⟨e, he⟩ := hfail d hd
        rw [he]
        intro hcon
        cases hcon
      · exact hacc
    · cases hrs : V1.reconstructSecret c 257 with
      | error e =>
        unfold V1.processCombo at hacc
        rw [hrs] at hacc
        cases hacc
      | ok s0 =>
        cases hfold : foldME (V1.consStep c 257) c
            ((V1.dedupByX shares).filter fun s => ¬ c.any fun cs => cs.x = s.x) with
        | error e =>
          have h2 := v1_processCombo_not_none (V1.dedupByX shares) k 257 c
          unfold V1.processCombo at hacc
          rw [hrs] at hacc
          have h3 : (match foldME (V1.consStep c 257) c
              ((V1.dedupByX shares).filter fun s => ¬ c.any fun cs => cs.x = s.x) with
            | .error e => (.error e : Except JsErr (Option V1.Success))
            | .ok consistentShares =>
              if k ≤ consistentShares.length then
                match V1.reconstructSecret (consistentShares.take k) 257 with
                | .error e => .error e
                | .ok finalSecret =>
                  .ok (some
                    { secret := finalSecret
                      validShares := consistentShares
                      invalidShares :=
                        (V1.dedupByX shares).filter
                          fun s => ¬ consistentShares.any fun cs => cs.x = s.x })
              else .ok none) = .ok (some r) := hacc
          rw [hfold] at h3
          cases h3
        | ok consistent =>
          rw [v1_processCombo_eq _ k 257 c s0 hrs consistent hfold] at hacc
          by_cases hlen : k ≤ consistent.length
          · rw [if_pos hlen] at hacc
            cases hfin : V1.reconstructSecret (consistent.take k) 257 with
            | error e => rw [hfin] at hacc; cases hacc
            | ok fs =>
              rw [hfin] at hacc
              have : r = { secret := fs
                           validShares := consistent
                           invalidShares := (V1.dedupByX shares).filter
                             fun s => ¬ consistent.any fun cs => cs.x = s.x } := by
                cases hacc
                rfl
              rw [this]
              exact hlen
          · rw [if_neg hlen] at hacc
            cases hacc
  · intro herr c hc
    cases hp : V1.processCombo (V1.dedupByX shares) k 257 c with
    | error e => exact ⟨e, rfl⟩
    | ok o =>
      cases o with
      | none => exact absurd hp (hnn c hc)
      | some s =>
        obtain ⟨r, hr⟩ := searchLoop_isOk_of_mem
          (V1.processCombo (V1.dedupByX shares) k 257)
          (V1.getCombinations (V1.dedupByX shares) k) c hc s hp
        rw [v1_classifier_eq_searchLoop k shares hraw hkd, hr] at herr
        cases herr

/-- Witness for C3: both correct shares (1,3), (3,7) of the line y = 2x + 1,
k = 2; the only candidate is fully processed and accepted. -/
theorem c3_witness :
    V1.findValidSharesAndReconstruct 2 [⟨1, 3⟩, ⟨3, 7⟩] =
      .ok { secret := 1
            validShares := [⟨1, 3⟩, ⟨3, 7⟩]
            invalidShares := [] } ∧
    2 ≤ ([⟨1, 3⟩, ⟨3, 7⟩] : List Share).length :=
  ⟨((c3_theorem 2 [⟨1, 3⟩, ⟨3, 7⟩] (by decide) (by decide)).2.1
      [] [⟨1, 3⟩, ⟨3, 7⟩] []
      { secret := 1
        validShares := [⟨1, 3⟩, ⟨3, 7⟩]
        invalidShares := [] }
      rfl (by simp) rfl).1, by decide⟩

/-- Claim C4: as stated the claim fails: the shares (1,1), (3,5), (4,2) lie
on no common degree-1 polynomial over Z/257, yet both variants return a
secret (256) instead of the no-consistent-subset error, because the first
interpolable candidate is accepted without corroboration. -/
theorem c4_counterexample :
    (∀ c0 c1 : Int,
      ¬ (onPoly 257 [c0, c1] ⟨1, 1⟩ ∧ onPoly 257 [c0, c1] ⟨3, 5⟩ ∧
        onPoly 257 [c0, c1] ⟨4, 2⟩)) ∧
    V1.findValidSharesAndReconstruct 2 [⟨1, 1⟩, ⟨3, 5⟩, ⟨4, 2⟩] =
      .ok { secret := 256
            validShares := [⟨1, 1⟩, ⟨3, 5⟩]
            invalidShares := [⟨4, 2⟩] } ∧
    V2.findValidSharesAndReconstruct 257 2 [⟨1, 1⟩, ⟨3, 5⟩, ⟨4, 2⟩] =
      .ok { secret := 256, invalidShares := [⟨4, 2⟩] } := by
  refine ⟨?_, rfl, rfl⟩
  rintro c0 c1 ⟨h1, h2, h3⟩
  unfold onPoly evalPoly at h1 h2 h3
  simp only [List.foldr] at h1 h2 h3
  omega

/-- Claim C4 (amended): the no-consistent-subset error is returned exactly
when every size-k candidate's `try` block raises an error (interpolation or
verification); in particular on such inputs no secret is ever returned, but
an input whose shares lie on no common polynomial can still produce a secret
whenever some candidate is processed without error. -/
theorem c4_theorem (p : Int) (k : Nat) (shares : List Share)
    (hraw : k ≤ shares.length) (hkd : k ≤ (V1.dedupByX shares).length) :
    (V1.findValidSharesAndReconstruct k shares = .error .noConsistentSubset ↔
      ∀ c ∈ V1.getCombinations (V1.dedupByX shares) k,
        ∃ e, V1.processCombo (V1.dedupByX shares) k 257 c = .error e) ∧
    (V2.findValidSharesAndReconstruct p k shares = .error .noConsistentSubset ↔
      ∀ c ∈ V2.getCombinations shares k,
        ∃ e, V2.processCombo shares k p c = .error e) := by
  constructor
  · constructor
    · intro herr c hc
      cases hp : V1.processCombo (V1.dedupByX shares) k 257 c with
      | error e => exact ⟨e, rfl⟩
      | ok o =>
        cases o with
        | none =>
          have hcl : c.length = k :=
            ((mem_getCombinations _ k c).mp ((getCombinations_eq _ k) ▸ hc)).2
          exact absurd hp (v1_processCombo_not_none _ k 257 c (by omega))
        | some s =>
          obtain ⟨r, hr⟩ := searchLoop_isOk_of_mem
            (V1.processCombo (V1.dedupByX shares) k 257)
            (V1.getCombinations (V1.dedupByX shares) k) c hc s hp
          rw [v1_classifier_eq_searchLoop k shares hraw hkd, hr] at herr
          cases herr
    · intro hall
      rw [v1_classifier_eq_searchLoop k shares hraw hkd]
      apply searchLoop_all_fail
      intro d hd s
      obtain ⟨e, he⟩ := hall d hd
      rw [he]
      intro hcon
      cases hcon
  · constructor
    · intro herr c hc
      cases hp : V2.processCombo shares k p c with
      | error e => exact ⟨e, rfl⟩
      | ok o =>
        cases o with
        | none =>
          have hcl : c.length = k := ((mem_getCombinations _ k c).mp hc).2
          exact absurd hp (v2_processCombo_not_none _ k p c (by omega))
        | some s =>
          obtain ⟨r, hr⟩ := searchLoop_isOk_of_mem (V2.processCombo shares k p)
            (V2.getCombinations shares k) c hc s hp
          rw [v2_classifier_eq_searchLoop p k shares hraw, hr] at herr
          cases herr
    · intro hall
      rw [v2_classifier_eq_searchLoop p k shares hraw]
      apply searchLoop_all_fail
      intro d hd s
      obtain ⟨e, he⟩ := hall d hd
      rw [he]
      intro hcon
      cases hcon

/-- Witness for C4: k = 2, shares (1,3), (2,5) (on the line y = 2x + 1): the
only candidate throws in interpolation, so both variants end in the
no-consistent-subset error. -/
theorem c4_witness :
    V1.findValidSharesAndReconstruct 2 [⟨1, 3⟩, ⟨2, 5⟩] =
      .error .noConsistentSubset ∧
    V2.findValidSharesAndReconstruct 257 2 [⟨1, 3⟩, ⟨2, 5⟩] =
      .error .noConsistentSubset := by
  constructor
  · apply ((c4_theorem 257 2 [⟨1, 3⟩, ⟨2, 5⟩] (by decide) (by decide)).1).mpr
    intro c hc
    have hc2 : c = [⟨1, 3⟩, ⟨2, 5⟩] := by
      have h3 : V1.getCombinations (V1.dedupByX [⟨1, 3⟩, ⟨2, 5⟩]) 2 =
          [[⟨1, 3⟩, ⟨2, 5⟩]] := rfl
      rw [h3] at hc
      simpa using hc
    subst hc2
    exact ⟨.noInverse, rfl⟩
  · apply ((c4_theorem 257 2 [⟨1, 3⟩, ⟨2, 5⟩] (by decide) (by decide)).2).mpr
    intro c hc
    have hc2 : c = [⟨1, 3⟩, ⟨2, 5⟩] := by
      have h3 : V2.getCombinations [⟨1, 3⟩, ⟨2, 5⟩] 2 = [[⟨1, 3⟩, ⟨2, 5⟩]] := rfl
      rw [h3] at hc
      simpa using hc
    subst hc2
    exact ⟨.noInverse, rfl⟩

/-- Claim C2: round-trip fails on the code.  The two shares (1,3) and (2,5)
lie on y = 2x + 1 over the prime 257 (secret 1), yet both variants reject
the only candidate and report the no-consistent-subset error instead of
returning the secret: the Lagrange denominator for the first row is
`(1 - 2) % p = -1`, and `egcd` returns gcd -1 on a negative first argument,
so `modInverse(-1, 257)` spuriously throws. -/
theorem c2_theorem :
    Nat.Prime 257 ∧
    onPoly 257 [1, 2] ⟨1, 3⟩ ∧ onPoly 257 [1, 2] ⟨2, 5⟩ ∧
    evalPoly [1, 2] 0 % 257 = 1 ∧
    V1.findValidSharesAndReconstruct 2 [⟨1, 3⟩, ⟨2, 5⟩] =
      .error .noConsistentSubset ∧
    V2.findValidSharesAndReconstruct 257 2 [⟨1, 3⟩, ⟨2, 5⟩] =
      .error .noConsistentSubset ∧
    modInverse (1 - 2) 257 = .error .noInverse ∧
    Int.gcd (1 - 2) 257 = 1 := by
  refine ⟨by norm_num, by decide, by decide, by decide, rfl, rfl, rfl, by decide⟩

/-! Claim C10: `parseBigInt`. -/

/-- Appending one digit to a radix string multiplies and adds. -/
theorem radixVal_snoc (b : Nat) (cs : List Char) (c : Char) :
    radixVal b (cs ++ [c]) =
      match jsParseIntChar c b, radixVal b cs with
      | some d, some v => some (v * b + d)
      | _, _ => none := by
  induction cs with
  | nil =>
    show radixVal b [c] = _
    unfold radixVal
    cases jsParseIntChar c b with
    | none => rfl
    | some d => simp [radixVal]
  | cons c2 cs ih =>
    show radixVal b (c2 :: (cs ++ [c])) = _
    unfold radixVal
    rw [ih]
    cases h1 : jsParseIntChar c2 b with
    | none =>
      cases jsParseIntChar c b <;> cases hrv : radixVal b cs <;> simp
    | some d2 =>
      cases h2 : jsParseIntChar c b with
      | none => simp
      | some d =>
        cases hrv : radixVal b cs with
        | none => simp
        | some v =>
          simp only [List.length_append, List.length_singleton]
          have : d2 * b ^ (cs.length + 1) + (v * b + d) =
              (d2 * b ^ cs.length + v) * b + d := by ring
          rw [this]

/-- The right-to-left accumulation loop of `parseBigInt` computes the radix
value whenever every character is a digit of the base. -/
theorem parseBigIntLoop_ok (b : Nat) (cs : List Char) (v : Nat)
    (hv : radixVal b cs = some v) :
    ∀ (power result : Int),
      parseBigIntLoop b cs.reverse power result = .ok (result + power * v) := by
  induction cs using List.reverseRecOn generalizing v with
  | nil =>
    intro power result
    cases hv
    simp [parseBigIntLoop]
  | append_singleton cs c ih =>
    intro power result
    rw [radixVal_snoc] at hv
    cases h1 : jsParseIntChar c b with
    | none => rw [h1] at hv; cases hv
    | some d =>
      rw [h1] at hv
      cases hrv : radixVal b cs with
      | none => rw [hrv] at hv; cases hv
      | some v2 =>
        rw [hrv] at hv
        have hveq : v = v2 * b + d := by cases hv; rfl
        rw [List.reverse_append, List.reverse_singleton]
        show parseBigIntLoop b (c :: cs.reverse) power result = _
        unfold parseBigIntLoop
        simp only [h1]
        rw [ih v2 hrv (power * b) (result + d * power)]
        congr 1
        rw [hveq]
        push_cast
        ring

/-- The loop throws whenever some character is not a digit of the base. -/
theorem parseBigIntLoop_err (b : Nat) (cs : List Char)
    (hv : radixVal b cs = none) :
    ∀ (power result : Int),
      parseBigIntLoop b cs.reverse power result = .error .invalidDigits := by
  induction cs using List.reverseRecOn with
  | nil => intro power result; cases hv
  | append_singleton cs c ih =>
    intro power result
    rw [radixVal_snoc] at hv
    rw [List.reverse_append, List.reverse_singleton]
    show parseBigIntLoop b (c :: cs.reverse) power result = _
    unfold parseBigIntLoop
    cases h1 : jsParseIntChar c b with
    | none => simp only [h1]
    | some d =>
      rw [h1] at hv
      simp only [h1]
      cases hrv : radixVal b cs with
      | none => exact ih hrv (power * b) (result + d * power)
      | some v2 => rw [hrv] at hv; cases hv

theorem dropWhile_eq_self_of {α : Type} (p : α → Bool) (l : List α)
    (h : ∀ c ∈ l, p c = false) : l.dropWhile p = l := by
  cases l with
  | nil => rfl
  | cons a l2 =>
    rw [List.dropWhile_cons, h a (List.mem_cons_self a l2)]
    simp

theorem digit_not_space (c : Char) (h : 48 ≤ c.toNat ∧ c.toNat ≤ 57) :
    jsIsSpace c = false := by
  unfold jsIsSpace
  have hne : ¬ (c = ' ') := by
    intro heq
    rw [heq] at h
    exact absurd h (by decide)
  simp only [hne, decide_eq_false_iff_not, decide_eq_true_eq, not_or]
  refine ⟨by simp [hne], by omega, by omega, by omega, by omega, by omega⟩

/-- Unfolding of the `StringToBigInt` core on a nonempty list. -/
theorem jsStrToBigIntCore_cons (c1 : Char) (rest1 : List Char) :
    jsStrToBigIntCore (c1 :: rest1) =
      (if c1 = '0' then
        match rest1 with
        | [] => Except.ok 0
        | b :: rest =>
          if b = 'x' ∨ b = 'X' then radixDecode 16 rest
          else if b = 'o' ∨ b = 'O' then radixDecode 8 rest
          else if b = 'b' ∨ b = 'B' then radixDecode 2 rest
          else radixDecode 10 (c1 :: rest1)
      else if c1 = '+' then radixDecode 10 rest1
      else if c1 = '-' then
        match radixDecode 10 rest1 with
        | Except.ok v2 => Except.ok (-v2)
        | Except.error e => Except.error e
      else radixDecode 10 (c1 :: rest1)) := rfl

/-- `BigInt(string)` on a non-empty all-decimal-digit string returns its
decimal value. -/
theorem jsBigIntOfString_digits (s : String) (v : Nat)
    (hne : s.data ≠ [])
    (hd : ∀ c ∈ s.data, 48 ≤ c.toNat ∧ c.toNat ≤ 57)
    (hv : radixVal 10 s.data = some v) :
    jsBigIntOfString s = .ok v := by
  have hns : ∀ c ∈ s.data, jsIsSpace c = false := fun c hc =>
    digit_not_space c (hd c hc)
  have htrim1 : s.data.dropWhile jsIsSpace = s.data := dropWhile_eq_self_of _ _ hns
  have htrim2 : s.data.reverse.dropWhile jsIsSpace = s.data.reverse :=
    dropWhile_eq_self_of _ _ (fun c hc => hns c (List.mem_reverse.mp hc))
  have hun : jsBigIntOfString s = jsStrToBigIntCore s.data := by
    unfold jsBigIntOfString
    rw [htrim1, htrim2, List.reverse_reverse]
  cases hds : s.data with
  | nil => exact absurd hds hne
  | cons c1 rest1 =>
    rw [hds] at hd hv hun
    rw [hun, jsStrToBigIntCore_cons]
    have hc1 := hd c1 (List.mem_cons_self c1 rest1)
    have hdec : radixDecode 10 (c1 :: rest1) = .ok v := by
      unfold radixDecode
      rw [if_neg (by simp), hv]
    by_cases h0 : c1 = '0'
    · rw [if_pos h0]
      cases rest1 with
      | nil =>
        rw [h0] at hv
        have h00 : radixVal 10 (['0'] : List Char) = some 0 := rfl
        rw [h00] at hv
        cases hv
        rfl
      | cons b rest =>
        have hb := hd b (List.mem_cons_of_mem c1 (List.mem_cons_self b rest))
        have hbx : ¬ (b = 'x' ∨ b = 'X') := by
          rintro (rfl | rfl) <;> exact absurd hb (by decide)
        have hbo : ¬ (b = 'o' ∨ b = 'O') := by
          rintro (rfl | rfl) <;> exact absurd hb (by decide)
        have hbb : ¬ (b = 'b' ∨ b = 'B') := by
          rintro (rfl | rfl) <;> exact absurd hb (by decide)
        show (if b = 'x' ∨ b = 'X' then radixDecode 16 rest
          else if b = 'o' ∨ b = 'O' then radixDecode 8 rest
          else if b = 'b' ∨ b = 'B' then radixDecode 2 rest
          else radixDecode 10 (c1 :: b :: rest)) = Except.ok (v : Int)
        rw [if_neg hbx, if_neg hbo, if_neg hbb]
        exact hdec
    · have hplus : ¬ c1 = '+' := by
        intro heq
        rw [heq] at hc1
        exact absurd hc1 (by decide)
      have hminus : ¬ c1 = '-' := by
        intro heq
        rw [heq] at hc1
        exact absurd hc1 (by decide)
      rw [if_neg h0, if_neg hplus, if_neg hminus]
      exact hdec

/-- Claim C10: the as-stated contract fails for base 10: `parseBigInt`
delegates base 10 to JS `BigInt`, which accepts the hexadecimal-marker
string `0x1f` (returning 31) and the signed string `-5` (returning a
negative value) instead of rejecting characters outside the base-10
alphabet. -/
theorem c10_counterexample :
    parseBigInt "0x1f" 10 = .ok 31 ∧
    (∃ c ∈ "0x1f".data, jsParseIntChar c 10 = none) ∧
    parseBigInt "-5" 10 = .ok (-5) := by
  refine ⟨rfl, ⟨'x', by decide, rfl⟩, rfl⟩

/-- Claim C10 (amended): for every base b with 2 <= b <= 36 other than 10,
`parseBigInt(value, b)` returns the base-b value of the digit string and
fails with an error on any string containing a character outside base b's
digit alphabet; for base 10 it instead applies JS `BigInt(value)` semantics,
which do return the decimal value on all-digit strings but also accept
sign characters, surrounding whitespace and `0x`/`0o`/`0b` prefixes (see the
counterexample). -/
theorem c10_theorem (s : String) (b : Int) (h2 : 2 ≤ b) (h36 : b ≤ 36) :
    (b ≠ 10 →
      (∀ v : Nat, radixVal b.toNat s.data = some v → parseBigInt s b = .ok v) ∧
      (radixVal b.toNat s.data = none →
        parseBigInt s b = .error .invalidDigits)) ∧
    (b = 10 → s.data ≠ [] → (∀ c ∈ s.data, 48 ≤ c.toNat ∧ c.toNat ≤ 57) →
      ∀ v : Nat, radixVal 10 s.data = some v → parseBigInt s b = .ok v) := by
  constructor
  · intro hb10
    have hguard : ¬ (b < 2 ∨ 36 < b) := by omega
    constructor
    · intro v hv
      unfold parseBigInt
      rw [if_neg hguard, if_neg hb10]
      rw [parseBigIntLoop_ok b.toNat s.data v hv 1 0]
      congr 1
      omega
    · intro hv
      unfold parseBigInt
      rw [if_neg hguard, if_neg hb10]
      exact parseBigIntLoop_err b.toNat s.data hv 1 0
  · intro hb10 hne hd v hv
    subst hb10
    unfold parseBigInt
    rw [if_neg (by omega), if_pos rfl]
    exact jsBigIntOfString_digits s v hne hd hv

/-- Witness for C10: base 16 on `1f`, base 2 rejecting `102`, base 10 on
`42`. -/
theorem c10_witness :
    parseBigInt "1f" 16 = .ok 31 ∧
    parseBigInt "102" 2 = .error .invalidDigits ∧
    parseBigInt "42" 10 = .ok 42 :=
  ⟨(( c10_theorem "1f" 16 (by decide) (by decide)).1 (by decide)).1 31 (by decide),
    (( c10_theorem "102" 2 (by decide) (by decide)).1 (by decide)).2 (by decide),
    ( c10_theorem "42" 10 (by decide) (by decide)).2 rfl (by decide) (by decide)
      42 (by decide)⟩

/-! Claim C1: mathematical bridge between the integer loops and Lagrange
interpolation over `ZMod p`. -/

theorem polyZ_eval (p : Nat) (coeffs : List Int) (x : Int) :
    (polyZ p coeffs).eval ((x : Int) : ZMod p) = ((evalPoly coeffs x : Int) : ZMod p) := by
  induction coeffs with
  | nil => simp [polyZ, evalPoly]
  | cons c cs ih =>
    show (Polynomial.C (c : ZMod p) + Polynomial.X * polyZ p cs).eval _ = _
    rw [Polynomial.eval_add, Polynomial.eval_C, Polynomial.eval_mul, Polynomial.eval_X, ih]
    show _ = ((c + x * evalPoly cs x : Int) : ZMod p)
    push_cast
    ring

theorem polyZ_degree_lt (p : Nat) [Fact p.Prime] (coeffs : List Int) :
    (polyZ p coeffs).degree < (coeffs.length : WithBot Nat) := by
  induction coeffs with
  | nil =>
    show (0 : Polynomial (ZMod p)).degree < ((0 : Nat) : WithBot Nat)
    rw [Polynomial.degree_zero]
    exact WithBot.bot_lt_coe 0
  | cons c cs ih =>
    show (Polynomial.C (c : ZMod p) + Polynomial.X * polyZ p cs).degree < _
    apply lt_of_le_of_lt (Polynomial.degree_add_le _ _)
    apply max_lt
    · apply lt_of_le_of_lt Polynomial.degree_C_le
      show ((0 : Nat) : WithBot Nat) < ((cs.length + 1 : Nat) : WithBot Nat)
      rw [Nat.cast_lt]
      omega
    · by_cases hq : polyZ p cs = 0
      · rw [hq, mul_zero, Polynomial.degree_zero]
        exact WithBot.bot_lt_coe _
      · rw [Polynomial.degree_mul, Polynomial.degree_X]
        have h2 : (1 : WithBot Nat) + (polyZ p cs).degree <
            1 + (cs.length : WithBot Nat) :=
          WithBot.add_lt_add_left (by simp) ih
        apply lt_of_lt_of_le h2
        rw [List.length_cons]
        push_cast
        exact le_of_eq (add_comm 1 _)

/-- The Lagrange-basis sum computed by the source's loops equals the
polynomial's value, for any target point. -/
theorem lagrange_sum_eval (p : Nat) [Fact p.Prime] (n : Nat) (v r : Nat → ZMod p)
    (hinj : Set.InjOn v (Finset.range n)) (f : Polynomial (ZMod p))
    (hdeg : f.degree < (n : WithBot Nat))
    (hval : ∀ i ∈ Finset.range n, f.eval (v i) = r i) (t : ZMod p) :
    ∑ i ∈ Finset.range n,
      r i * ((Finset.range n).erase i).prod (fun j => (t - v j) * (v i - v j)⁻¹) =
      f.eval t := by
  have hf : f = (Lagrange.interpolate (Finset.range n) v) r :=
    Lagrange.eq_interpolate_of_eval_eq r hinj (by rwa [Finset.card_range]) hval
  conv_rhs => rw [hf]
  rw [Lagrange.interpolate_apply, Polynomial.eval_finset_sum]
  apply Finset.sum_congr rfl
  intro i _
  rw [Polynomial.eval_mul, Polynomial.eval_C]
  congr 1
  rw [Lagrange.basis, Polynomial.eval_prod]
  apply Finset.prod_congr rfl
  intro j _
  rw [Lagrange.basisDivisor, Polynomial.eval_mul, Polynomial.eval_C,
    Polynomial.eval_sub, Polynomial.eval_X, Polynomial.eval_C]
  ring

/-- Casting the truncated remainder modulo `p` into `ZMod p` forgets the
reduction. -/
theorem castJsMod (p : Nat) (a : Int) :
    (((jsMod a (p : Int)) : Int) : ZMod p) = ((a : Int) : ZMod p) := by
  rw [ZMod.intCast_eq_intCast_iff]
  show jsMod a (p : Int) % (p : Int) = a % (p : Int)
  exact jsMod_emod a (p : Int)

/-- Two integers in `[0, p)` with the same image in `ZMod p` are equal. -/
theorem int_eq_of_cast_eq (p : Nat) (a b : Int) (_hp : 0 < p)
    (ha : 0 ≤ a ∧ a < p) (hb : 0 ≤ b ∧ b < p)
    (h : ((a : Int) : ZMod p) = ((b : Int) : ZMod p)) : a = b := by
  rw [ZMod.intCast_eq_intCast_iff] at h
  have h2 : a % (p : Int) = b % (p : Int) := h
  rwa [Int.emod_eq_of_lt ha.1 ha.2, Int.emod_eq_of_lt hb.1 hb.2] at h2

/-- A successful `modInverse` call lands on the field inverse in `ZMod p`. -/
theorem castModInverse (p : Nat) [Fact p.Prime] (d b : Int) (hp : 0 < p)
    (h : modInverse d (p : Int) = .ok b) :
    ((b : Int) : ZMod p) = (((d : Int) : ZMod p))⁻¹ := by
  obtain ⟨h0, h1, h2⟩ := modInverse_ok_spec d (p : Int) b (by exact_mod_cast hp) h
  apply eq_inv_of_mul_eq_one_right
  have h3 : (((d * b : Int) : ZMod p)) = ((1 : Int) : ZMod p) := by
    rw [ZMod.intCast_eq_intCast_iff]
    exact h2
  push_cast at h3
  exact h3

section C1Bridge

variable (p : Nat) (pts : List Share)

/-- Products of a function over the de-duplicated filtered index list equal
finset products over `erase`. -/
theorem filter_range_prod (n i : Nat) (g : Nat → ZMod p) :
    (((List.range n).filter fun j => j ≠ i).map g).prod =
      ((Finset.range n).erase i).prod g := by
  rw [← List.prod_toFinset g (List.Nodup.filter _ (List.nodup_range n))]
  congr 1
  apply Finset.ext
  intro a
  simp only [List.mem_toFinset, List.mem_filter, List.mem_range, Finset.mem_erase,
    Finset.mem_range, ne_eq, decide_not, Bool.not_eq_eq_eq_not, Bool.not_true,
    decide_eq_false_iff_not]
  exact and_comm

/-- Casting the numerator/denominator loop into the field yields the two
Lagrange products. -/
theorem ndFold_cast (i : Nat) (l : List Nat) (nd : Int × Int) :
    (((l.foldl (ndStep pts (p : Int) i) nd).1 : Int) : ZMod p) =
      (nd.1 : ZMod p) * ((l.filter fun j => j ≠ i).map fun j => 0 - xc p pts j).prod ∧
    (((l.foldl (ndStep pts (p : Int) i) nd).2 : Int) : ZMod p) =
      (nd.2 : ZMod p) *
        ((l.filter fun j => j ≠ i).map fun j => xc p pts i - xc p pts j).prod := by
  induction l generalizing nd with
  | nil => simp
  | cons j l ih =>
    by_cases hji : j = i
    · subst hji
      have hstep : ndStep pts (p : Int) j nd j = nd := by simp [ndStep]
      rw [List.foldl_cons, hstep]
      have hfil : (j :: l).filter (fun j2 => j2 ≠ j) = l.filter (fun j2 => j2 ≠ j) := by
        simp [List.filter_cons]
      rw [hfil]
      exact ih nd
    · have hstep : ndStep pts (p : Int) i nd j =
          (jsMod (nd.1 * (0 - (pts.getD j ⟨0, 0⟩).x)) (p : Int),
            jsMod (nd.2 * ((pts.getD i ⟨0, 0⟩).x - (pts.getD j ⟨0, 0⟩).x)) (p : Int)) := by
        simp [ndStep, hji]
      have hfil : (j :: l).filter (fun j2 => j2 ≠ i) =
          j :: l.filter (fun j2 => j2 ≠ i) := by
        simp [List.filter_cons, hji]
      rw [List.foldl_cons, hstep, hfil]
      obtain ⟨ih1, ih2⟩ := ih (jsMod (nd.1 * (0 - (pts.getD j ⟨0, 0⟩).x)) (p : Int),
        jsMod (nd.2 * ((pts.getD i ⟨0, 0⟩).x - (pts.getD j ⟨0, 0⟩).x)) (p : Int))
      constructor
      · rw [ih1, List.map_cons, List.prod_cons]
        show (((jsMod (nd.1 * (0 - (pts.getD j ⟨0, 0⟩).x)) (p : Int) : Int) : ZMod p)) * _ = _
        rw [castJsMod]
        push_cast
        show (nd.1 : ZMod p) * (0 - xc p pts j) * _ =
          (nd.1 : ZMod p) * ((0 - xc p pts j) * _)
        ring
      · rw [ih2, List.map_cons, List.prod_cons]
        show (((jsMod (nd.2 * ((pts.getD i ⟨0, 0⟩).x - (pts.getD j ⟨0, 0⟩).x)) (p : Int) : Int) :
          ZMod p)) * _ = _
        rw [castJsMod]
        push_cast
        show (nd.2 : ZMod p) * (xc p pts i - xc p pts j) * _ =
          (nd.2 : ZMod p) * ((xc p pts i - xc p pts j) * _)
        ring

theorem numDenLoop_cast (i : Nat) :
    (((numDenLoop pts (p : Int) i).1 : Int) : ZMod p) = nprodZ p pts i ∧
    (((numDenLoop pts (p : Int) i).2 : Int) : ZMod p) = dprodZ p pts i := by
  obtain ⟨h1, h2⟩ := ndFold_cast p pts i (List.range pts.length) (1, 1)
  unfold numDenLoop nprodZ dprodZ
  constructor
  · rw [h1, filter_range_prod]
    show (((1 : Int) : ZMod p)) * _ = _
    push_cast
    ring
  · rw [h2, filter_range_prod]
    show (((1 : Int) : ZMod p)) * _ = _
    push_cast
    ring

theorem foldME_nil {α β : Type} (f : α → β → Except JsErr α) (a : α) :
    foldME f a [] = .ok a := rfl

theorem foldME_cons {α β : Type} (f : α → β → Except JsErr α) (a : α) (b : β)
    (l : List β) :
    foldME f a (b :: l) =
      match f a b with
      | .error e => .error e
      | .ok a2 => foldME f a2 l := rfl

/-- Sum of a function mapped over `List.range` as a finset sum. -/
theorem list_range_map_sum {M : Type} [AddCommMonoid M] (n : Nat) (g : Nat → M) :
    ((List.range n).map g).sum = ∑ i ∈ Finset.range n, g i := by
  induction n with
  | zero => simp
  | succ n ih =>
    rw [List.range_succ, List.map_append, List.sum_append, Finset.sum_range_succ, ih]
    simp

/-- A successful row of variant 1's `reconstructSecret`: in the field it adds
the row's Lagrange term at 0, and the running value stays in `(-p, p)`. -/
theorem rsStep_ok_cast (i : Nat) (secret s2 : Int) [Fact p.Prime]
    (h : V1.rsStep pts (p : Int) secret i = .ok s2) :
    ((s2 : Int) : ZMod p) =
      (secret : ZMod p) + yc p pts i * nprodZ p pts i * (dprodZ p pts i)⁻¹ ∧
    -(p : Int) < s2 ∧ s2 < p := by
  have hp : 0 < p := (Fact.out : p.Prime).pos
  have hpI : (0 : Int) < (p : Int) := by exact_mod_cast hp
  simp only [V1.rsStep, V1.numDen] at h
  by_cases hz : (numDenLoop pts (p : Int) i).2 = 0
  · rw [if_pos hz] at h
    cases h
  · rw [if_neg hz] at h
    cases hinv : modInverse (numDenLoop pts (p : Int) i).2 (p : Int) with
    | error e => rw [hinv] at h; cases h
    | ok inv =>
      rw [hinv] at h
      injection h with h2
      subst h2
      refine ⟨?_, neg_lt_jsMod _ _ hpI, jsMod_lt_of_pos _ _ hpI⟩
      rw [castJsMod]
      push_cast
      rw [castJsMod]
      push_cast
      rw [castModInverse p _ inv hp hinv, (numDenLoop_cast p pts i).1,
        (numDenLoop_cast p pts i).2]
      rw [yc]

/-- Folding variant 1's row step: the final value casts to the initial value
plus the sum of the rows' Lagrange terms. -/
theorem rsFold_cast (l : List Nat) (secret out : Int) [Fact p.Prime]
    (h : foldME (V1.rsStep pts (p : Int)) secret l = .ok out) :
    ((out : Int) : ZMod p) =
      (secret : ZMod p) +
        (l.map fun i => yc p pts i * nprodZ p pts i * (dprodZ p pts i)⁻¹).sum := by
  induction l generalizing secret with
  | nil =>
    rw [foldME_nil] at h
    injection h with h2
    subst h2
    simp
  | cons i l ih =>
    rw [foldME_cons] at h
    cases hstep : V1.rsStep pts (p : Int) secret i with
    | error e => rw [hstep] at h; cases h
    | ok s2 =>
      rw [hstep] at h
      rw [List.map_cons, List.sum_cons, ← add_assoc,
        ← (rsStep_ok_cast p pts i secret s2 hstep).1]
      exact ih s2 h

/-- Folding variant 1's row step keeps the running value in `(-p, p)`. -/
theorem rsFold_range (l : List Nat) (secret out : Int) [Fact p.Prime]
    (hs : -(p : Int) < secret ∧ secret < p)
    (h : foldME (V1.rsStep pts (p : Int)) secret l = .ok out) :
    -(p : Int) < out ∧ out < p := by
  induction l generalizing secret with
  | nil =>
    rw [foldME_nil] at h
    injection h with h2
    subst h2
    exact hs
  | cons i l ih =>
    rw [foldME_cons] at h
    cases hstep : V1.rsStep pts (p : Int) secret i with
    | error e => rw [hstep] at h; cases h
    | ok s2 =>
      rw [hstep] at h
      exact ih s2 (rsStep_ok_cast p pts i secret s2 hstep).2 h

/-- A successful variant 1 `reconstructSecret` lands in `[0, p)` and casts to
the Lagrange-basis sum at 0. -/
theorem v1_reconstruct_cast (v : Int) [Fact p.Prime]
    (h : V1.reconstructSecret pts (p : Int) = .ok v) :
    ((v : Int) : ZMod p) =
      ∑ i ∈ Finset.range pts.length,
        yc p pts i * nprodZ p pts i * (dprodZ p pts i)⁻¹ ∧
    0 ≤ v ∧ v < p := by
  have hp : 0 < p := (Fact.out : p.Prime).pos
  have hpI : (0 : Int) < (p : Int) := by exact_mod_cast hp
  unfold V1.reconstructSecret at h
  cases hf : foldME (V1.rsStep pts (p : Int)) 0 (List.range pts.length) with
  | error e => rw [hf] at h; cases h
  | ok secret =>
    rw [hf] at h
    injection h with h2
    subst h2
    have hrange := rsFold_range p pts (List.range pts.length) 0 secret
      ⟨by omega, hpI⟩ hf
    refine ⟨?_, jsMod_nonneg _ _ (by omega), jsMod_lt_of_pos _ _ hpI⟩
    rw [castJsMod]
    push_cast
    rw [ZMod.natCast_self, add_zero]
    have hc := rsFold_cast p pts (List.range pts.length) 0 secret hf
    rw [hc, list_range_map_sum]
    push_cast
    rw [zero_add]

/-- Casting an already-reduced remainder into `ZMod p` forgets the reduction. -/
theorem castEmod (a : Int) :
    (((a % (p : Int)) : Int) : ZMod p) = ((a : Int) : ZMod p) := by
  rw [ZMod.intCast_eq_intCast_iff]
  show a % (p : Int) % (p : Int) = a % (p : Int)
  exact Int.emod_emod_of_dvd a dvd_rfl

/-- A successful variant 1 `reconstructSecret` on points lying on the
polynomial with the given coefficients returns `evalPoly coeffs 0 % p`. -/
theorem v1_reconstruct_value (coeffs : List Int) (v : Int) [Fact p.Prime]
    (hdeg : coeffs.length ≤ pts.length)
    (hinj : Set.InjOn (xc p pts) (Finset.range pts.length))
    (hval : ∀ i ∈ Finset.range pts.length,
      (polyZ p coeffs).eval (xc p pts i) = yc p pts i)
    (h : V1.reconstructSecret pts (p : Int) = .ok v) :
    v = evalPoly coeffs 0 % (p : Int) := by
  have hp : 0 < p := (Fact.out : p.Prime).pos
  have hpI : (0 : Int) < (p : Int) := by exact_mod_cast hp
  obtain ⟨hc, hv0, hvp⟩ := v1_reconstruct_cast p pts v h
  have hterm : ∀ i ∈ Finset.range pts.length,
      yc p pts i * nprodZ p pts i * (dprodZ p pts i)⁻¹ =
        yc p pts i * ((Finset.range pts.length).erase i).prod
          (fun j => ((0 : ZMod p) - xc p pts j) * (xc p pts i - xc p pts j)⁻¹) := by
    intro i _
    rw [Finset.prod_mul_distrib, Finset.prod_inv_distrib]
    rw [nprodZ, dprodZ]
    ring
  rw [Finset.sum_congr rfl hterm] at hc
  have hdegW : (polyZ p coeffs).degree < (pts.length : WithBot Nat) :=
    lt_of_lt_of_le (polyZ_degree_lt p coeffs) (by exact_mod_cast hdeg)
  have hsum := lagrange_sum_eval p pts.length (xc p pts) (yc p pts) hinj
    (polyZ p coeffs) hdegW hval 0
  rw [hsum] at hc
  have hev : (polyZ p coeffs).eval 0 = ((evalPoly coeffs 0 : Int) : ZMod p) := by
    have h0 := polyZ_eval p coeffs 0
    rwa [Int.cast_zero] at h0
  rw [hev] at hc
  apply int_eq_of_cast_eq p v (evalPoly coeffs 0 % (p : Int)) hp ⟨hv0, hvp⟩
    ⟨Int.emod_nonneg _ (by omega), Int.emod_lt_of_pos _ hpI⟩
  rw [castEmod]
  exact hc

end C1Bridge

theorem v1_epTerm_eq_fold (x : Int) (points : List Share) (prime : Int) (i : Nat) :
    V1.epTerm x points prime i =
      foldME (epTermStepV1 x points prime i) (points.getD i ⟨0, 0⟩).y
        (List.range points.length) := rfl

section C1Bridge2

variable (p : Nat) (pts : List Share)

/-- Inner fold of variant 1's `evaluatePolynomial`: the row term casts to the
initial value times the Lagrange factors for the visited indices. -/
theorem epTermFoldV1_cast (x : Int) (i : Nat) (l : List Nat) (term out : Int)
    [Fact p.Prime]
    (h : foldME (epTermStepV1 x pts (p : Int) i) term l = .ok out) :
    ((out : Int) : ZMod p) =
      (term : ZMod p) *
        ((l.filter fun j => j ≠ i).map
          (fun j => ((x : Int) - (pts.getD j ⟨0, 0⟩).x : Int) *
            ((xc p pts i - xc p pts j)⁻¹ : ZMod p))).prod := by
  have hp : 0 < p := (Fact.out : p.Prime).pos
  induction l generalizing term with
  | nil =>
    rw [foldME_nil] at h
    injection h with h2
    subst h2
    simp
  | cons j l ih =>
    by_cases hji : j = i
    · subst hji
      have hstep : epTermStepV1 x pts (p : Int) j term j = .ok term := by
        simp [epTermStepV1]
      rw [foldME_cons, hstep] at h
      have hfil : (j :: l).filter (fun j2 => j2 ≠ j) = l.filter (fun j2 => j2 ≠ j) := by
        simp [List.filter_cons]
      rw [hfil]
      exact ih term h
    · rw [foldME_cons] at h
      have hstep : epTermStepV1 x pts (p : Int) i term j =
          match modInverse ((pts.getD i ⟨0, 0⟩).x - (pts.getD j ⟨0, 0⟩).x) (p : Int) with
          | .error e => .error e
          | .ok inv =>
            .ok (jsMod (term * (x - (pts.getD j ⟨0, 0⟩).x) * inv) (p : Int)) := by
        simp [epTermStepV1, hji]
      rw [hstep] at h
      cases hinv : modInverse ((pts.getD i ⟨0, 0⟩).x - (pts.getD j ⟨0, 0⟩).x) (p : Int) with
      | error e => rw [hinv] at h; cases h
      | ok inv =>
        rw [hinv] at h
        have hfil : (j :: l).filter (fun j2 => j2 ≠ i) =
            j :: l.filter (fun j2 => j2 ≠ i) := by
          simp [List.filter_cons, hji]
        rw [hfil, List.map_cons, List.prod_cons]
        have hout := ih (jsMod (term * (x - (pts.getD j ⟨0, 0⟩).x) * inv) (p : Int)) h
        rw [hout, castJsMod]
        have hcinv : ((inv : Int) : ZMod p) =
            (((((pts.getD i ⟨0, 0⟩).x - (pts.getD j ⟨0, 0⟩).x) : Int)) : ZMod p)⁻¹ :=
          castModInverse p _ inv hp hinv
        push_cast
        rw [hcinv]
        simp only [xc]
        push_cast
        ring

/-- A successful row of variant 1's `evaluatePolynomial` adds the row's
Lagrange term at `x` and keeps the running result in `(-p, p)`. -/
theorem epStepV1_ok_cast (x : Int) (i : Nat) (result out : Int) [Fact p.Prime]
    (h : V1.epStep x pts (p : Int) result i = .ok out) :
    ((out : Int) : ZMod p) =
      (result : ZMod p) +
        yc p pts i * ((Finset.range pts.length).erase i).prod
          (fun j => (((x : Int) : ZMod p) - xc p pts j) * (xc p pts i - xc p pts j)⁻¹) ∧
    -(p : Int) < out ∧ out < p := by
  have hp : 0 < p := (Fact.out : p.Prime).pos
  have hpI : (0 : Int) < (p : Int) := by exact_mod_cast hp
  unfold V1.epStep at h
  cases hterm : V1.epTerm x pts (p : Int) i with
  | error e => rw [hterm] at h; cases h
  | ok term =>
    rw [hterm] at h
    injection h with h2
    subst h2
    refine ⟨?_, neg_lt_jsMod _ _ hpI, jsMod_lt_of_pos _ _ hpI⟩
    rw [castJsMod]
    push_cast
    rw [v1_epTerm_eq_fold] at hterm
    have hc := epTermFoldV1_cast p pts x i (List.range pts.length)
      (pts.getD i ⟨0, 0⟩).y term hterm
    have hprod : ((((List.range pts.length).filter fun j => j ≠ i).map
        (fun j => ((x : Int) - (pts.getD j ⟨0, 0⟩).x : Int) *
          ((xc p pts i - xc p pts j)⁻¹ : ZMod p))).prod) =
        ((Finset.range pts.length).erase i).prod
          (fun j => (((x : Int) : ZMod p) - xc p pts j) * (xc p pts i - xc p pts j)⁻¹) := by
      rw [filter_range_prod]
      apply Finset.prod_congr rfl
      intro j _
      simp only [xc]
      push_cast
      ring
    rw [hc, hprod, yc]

/-- Folding variant 1's evaluation rows: the final value casts to the initial
value plus the sum of the rows' Lagrange terms at `x`. -/
theorem epFoldV1_cast (x : Int) (l : List Nat) (result out : Int) [Fact p.Prime]
    (h : foldME (V1.epStep x pts (p : Int)) result l = .ok out) :
    ((out : Int) : ZMod p) =
      (result : ZMod p) + (l.map (lagTerm p pts ((x : Int) : ZMod p))).sum := by
  induction l generalizing result with
  | nil =>
    rw [foldME_nil] at h
    injection h with h2
    subst h2
    simp
  | cons i l ih =>
    rw [foldME_cons] at h
    cases hstep : V1.epStep x pts (p : Int) result i with
    | error e => rw [hstep] at h; cases h
    | ok s2 =>
      rw [hstep] at h
      rw [List.map_cons, List.sum_cons, ← add_assoc, lagTerm,
        ← (epStepV1_ok_cast p pts x i result s2 hstep).1]
      exact ih s2 h

/-- Folding variant 1's evaluation rows keeps the running value in `(-p, p)`. -/
theorem epFoldV1_range (x : Int) (l : List Nat) (result out : Int) [Fact p.Prime]
    (hs : -(p : Int) < result ∧ result < p)
    (h : foldME (V1.epStep x pts (p : Int)) result l = .ok out) :
    -(p : Int) < out ∧ out < p := by
  induction l generalizing result with
  | nil =>
    rw [foldME_nil] at h
    injection h with h2
    subst h2
    exact hs
  | cons i l ih =>
    rw [foldME_cons] at h
    cases hstep : V1.epStep x pts (p : Int) result i with
    | error e => rw [hstep] at h; cases h
    | ok s2 =>
      rw [hstep] at h
      exact ih s2 (epStepV1_ok_cast p pts x i result s2 hstep).2 h

/-- A successful variant 1 `evaluatePolynomial` lands in `[0, p)` and casts to
the Lagrange-basis sum at `x`. -/
theorem v1_evaluate_cast (x v : Int) [Fact p.Prime]
    (h : V1.evaluatePolynomial x pts (p : Int) = .ok v) :
    ((v : Int) : ZMod p) =
      ∑ i ∈ Finset.range pts.length, lagTerm p pts ((x : Int) : ZMod p) i ∧
    0 ≤ v ∧ v < p := by
  have hp : 0 < p := (Fact.out : p.Prime).pos
  have hpI : (0 : Int) < (p : Int) := by exact_mod_cast hp
  unfold V1.evaluatePolynomial at h
  cases hf : foldME (V1.epStep x pts (p : Int)) 0 (List.range pts.length) with
  | error e => rw [hf] at h; cases h
  | ok result =>
    rw [hf] at h
    injection h with h2
    subst h2
    have hrange := epFoldV1_range p pts x (List.range pts.length) 0 result
      ⟨by omega, hpI⟩ hf
    refine ⟨?_, jsMod_nonneg _ _ (by omega), jsMod_lt_of_pos _ _ hpI⟩
    rw [castJsMod]
    push_cast
    rw [ZMod.natCast_self, add_zero]
    have hc := epFoldV1_cast p pts x (List.range pts.length) 0 result hf
    rw [hc, list_range_map_sum]
    push_cast
    rw [zero_add]

/-- A successful variant 1 `evaluatePolynomial` on points lying on the
polynomial with the given coefficients returns `evalPoly coeffs x % p`. -/
theorem v1_evaluate_value (coeffs : List Int) (x v : Int) [Fact p.Prime]
    (hdeg : coeffs.length ≤ pts.length)
    (hinj : Set.InjOn (xc p pts) (Finset.range pts.length))
    (hval : ∀ i ∈ Finset.range pts.length,
      (polyZ p coeffs).eval (xc p pts i) = yc p pts i)
    (h : V1.evaluatePolynomial x pts (p : Int) = .ok v) :
    v = evalPoly coeffs x % (p : Int) := by
  have hp : 0 < p := (Fact.out : p.Prime).pos
  have hpI : (0 : Int) < (p : Int) := by exact_mod_cast hp
  obtain ⟨hc, hv0, hvp⟩ := v1_evaluate_cast p pts x v h
  have hdegW : (polyZ p coeffs).degree < (pts.length : WithBot Nat) :=
    lt_of_lt_of_le (polyZ_degree_lt p coeffs) (by exact_mod_cast hdeg)
  have hsum := lagrange_sum_eval p pts.length (xc p pts) (yc p pts) hinj
    (polyZ p coeffs) hdegW hval ((x : Int) : ZMod p)
  have hterm : ∀ i ∈ Finset.range pts.length,
      lagTerm p pts ((x : Int) : ZMod p) i =
        yc p pts i * ((Finset.range pts.length).erase i).prod
          (fun j => (((x : Int) : ZMod p) - xc p pts j) * (xc p pts i - xc p pts j)⁻¹) := by
    intro i _
    rw [lagTerm]
  rw [Finset.sum_congr rfl hterm, hsum, polyZ_eval] at hc
  apply int_eq_of_cast_eq p v (evalPoly coeffs x % (p : Int)) hp ⟨hv0, hvp⟩
    ⟨Int.emod_nonneg _ (by omega), Int.emod_lt_of_pos _ hpI⟩
  rw [castEmod]
  exact hc

/-- A successful row of variant 2's `lagrangeInterpolate`: in the field it
adds the row's Lagrange term at 0, and the running value stays in `(-p, p)`. -/
theorem liStep_ok_cast (i : Nat) (secret s2 : Int) [Fact p.Prime]
    (h : V2.liStep pts (p : Int) secret i = .ok s2) :
    ((s2 : Int) : ZMod p) =
      (secret : ZMod p) + yc p pts i * nprodZ p pts i * (dprodZ p pts i)⁻¹ ∧
    -(p : Int) < s2 ∧ s2 < p := by
  have hp : 0 < p := (Fact.out : p.Prime).pos
  have hpI : (0 : Int) < (p : Int) := by exact_mod_cast hp
  simp only [V2.liStep, V2.numDen] at h
  cases hinv : modInverse (numDenLoop pts (p : Int) i).2 (p : Int) with
  | error e => rw [hinv] at h; cases h
  | ok inv =>
    rw [hinv] at h
    injection h with h2
    subst h2
    refine ⟨?_, neg_lt_jsMod _ _ hpI, jsMod_lt_of_pos _ _ hpI⟩
    rw [castJsMod]
    push_cast
    rw [castModInverse p _ inv hp hinv, (numDenLoop_cast p pts i).1,
      (numDenLoop_cast p pts i).2]
    rw [yc]

/-- Folding variant 2's row step: the final value casts to the initial value
plus the sum of the rows' Lagrange terms. -/
theorem liFold_cast (l : List Nat) (secret out : Int) [Fact p.Prime]
    (h : foldME (V2.liStep pts (p : Int)) secret l = .ok out) :
    ((out : Int) : ZMod p) =
      (secret : ZMod p) +
        (l.map fun i => yc p pts i * nprodZ p pts i * (dprodZ p pts i)⁻¹).sum := by
  induction l generalizing secret with
  | nil =>
    rw [foldME_nil] at h
    injection h with h2
    subst h2
    simp
  | cons i l ih =>
    rw [foldME_cons] at h
    cases hstep : V2.liStep pts (p : Int) secret i with
    | error e => rw [hstep] at h; cases h
    | ok s2 =>
      rw [hstep] at h
      rw [List.map_cons, List.sum_cons, ← add_assoc,
        ← (liStep_ok_cast p pts i secret s2 hstep).1]
      exact ih s2 h

/-- Folding variant 2's row step keeps the running value in `(-p, p)`. -/
theorem liFold_range (l : List Nat) (secret out : Int) [Fact p.Prime]
    (hs : -(p : Int) < secret ∧ secret < p)
    (h : foldME (V2.liStep pts (p : Int)) secret l = .ok out) :
    -(p : Int) < out ∧ out < p := by
  induction l generalizing secret with
  | nil =>
    rw [foldME_nil] at h
    injection h with h2
    subst h2
    exact hs
  | cons i l ih =>
    rw [foldME_cons] at h
    cases hstep : V2.liStep pts (p : Int) secret i with
    | error e => rw [hstep] at h; cases h
    | ok s2 =>
      rw [hstep] at h
      exact ih s2 (liStep_ok_cast p pts i secret s2 hstep).2 h

/-- A successful variant 2 `lagrangeInterpolate` lands in `[0, p)` and casts
to the Lagrange-basis sum at 0. -/
theorem v2_lagrange_cast (v : Int) [Fact p.Prime]
    (h : V2.lagrangeInterpolate pts (p : Int) = .ok v) :
    ((v : Int) : ZMod p) =
      ∑ i ∈ Finset.range pts.length,
        yc p pts i * nprodZ p pts i * (dprodZ p pts i)⁻¹ ∧
    0 ≤ v ∧ v < p := by
  have hp : 0 < p := (Fact.out : p.Prime).pos
  have hpI : (0 : Int) < (p : Int) := by exact_mod_cast hp
  unfold V2.lagrangeInterpolate at h
  cases hf : foldME (V2.liStep pts (p : Int)) 0 (List.range pts.length) with
  | error e => rw [hf] at h; cases h
  | ok secret =>
    rw [hf] at h
    injection h with h2
    subst h2
    have hrange := liFold_range p pts (List.range pts.length) 0 secret
      ⟨by omega, hpI⟩ hf
    refine ⟨?_, jsMod_nonneg _ _ (by omega), jsMod_lt_of_pos _ _ hpI⟩
    rw [castJsMod]
    push_cast
    rw [ZMod.natCast_self, add_zero]
    have hc := liFold_cast p pts (List.range pts.length) 0 secret hf
    rw [hc, list_range_map_sum]
    push_cast
    rw [zero_add]

/-- A successful variant 2 `lagrangeInterpolate` on points lying on the
polynomial with the given coefficients returns `evalPoly coeffs 0 % p`. -/
theorem v2_lagrange_value (coeffs : List Int) (v : Int) [Fact p.Prime]
    (hdeg : coeffs.length ≤ pts.length)
    (hinj : Set.InjOn (xc p pts) (Finset.range pts.length))
    (hval : ∀ i ∈ Finset.range pts.length,
      (polyZ p coeffs).eval (xc p pts i) = yc p pts i)
    (h : V2.lagrangeInterpolate pts (p : Int) = .ok v) :
    v = evalPoly coeffs 0 % (p : Int) := by
  have hp : 0 < p := (Fact.out : p.Prime).pos
  have hpI : (0 : Int) < (p : Int) := by exact_mod_cast hp
  obtain ⟨hc, hv0, hvp⟩ := v2_lagrange_cast p pts v h
  have hterm : ∀ i ∈ Finset.range pts.length,
      yc p pts i * nprodZ p pts i * (dprodZ p pts i)⁻¹ =
        yc p pts i * ((Finset.range pts.length).erase i).prod
          (fun j => ((0 : ZMod p) - xc p pts j) * (xc p pts i - xc p pts j)⁻¹) := by
    intro i _
    rw [Finset.prod_mul_distrib, Finset.prod_inv_distrib]
    rw [nprodZ, dprodZ]
    ring
  rw [Finset.sum_congr rfl hterm] at hc
  have hdegW : (polyZ p coeffs).degree < (pts.length : WithBot Nat) :=
    lt_of_lt_of_le (polyZ_degree_lt p coeffs) (by exact_mod_cast hdeg)
  have hsum := lagrange_sum_eval p pts.length (xc p pts) (yc p pts) hinj
    (polyZ p coeffs) hdegW hval 0
  rw [hsum] at hc
  have hev : (polyZ p coeffs).eval 0 = ((evalPoly coeffs 0 : Int) : ZMod p) := by
    have h0 := polyZ_eval p coeffs 0
    rwa [Int.cast_zero] at h0
  rw [hev] at hc
  apply int_eq_of_cast_eq p v (evalPoly coeffs 0 % (p : Int)) hp ⟨hv0, hvp⟩
    ⟨Int.emod_nonneg _ (by omega), Int.emod_lt_of_pos _ hpI⟩
  rw [castEmod]
  exact hc

end C1Bridge2

theorem v2_epTerm_eq_fold (shares : List Share) (prime : Int) (atX : Int) (i : Nat) :
    V2.epTerm shares prime atX i =
      foldME (epTermStepV2 shares prime atX i) (shares.getD i ⟨0, 0⟩).y
        (List.range shares.length) := rfl

section C1Bridge3

variable (p : Nat) (pts : List Share)

/-- Inner fold of variant 2's `evaluatePolynomial`: the row term casts to the
initial value times the Lagrange factors for the visited indices. -/
theorem epTermFoldV2_cast (atX : Int) (i : Nat) (l : List Nat) (term out : Int)
    [Fact p.Prime]
    (h : foldME (epTermStepV2 pts (p : Int) atX i) term l = .ok out) :
    ((out : Int) : ZMod p) =
      (term : ZMod p) *
        ((l.filter fun j => j ≠ i).map
          (fun j => ((atX : Int) - (pts.getD j ⟨0, 0⟩).x : Int) *
            ((xc p pts i - xc p pts j)⁻¹ : ZMod p))).prod := by
  have hp : 0 < p := (Fact.out : p.Prime).pos
  induction l generalizing term with
  | nil =>
    rw [foldME_nil] at h
    injection h with h2
    subst h2
    simp
  | cons j l ih =>
    by_cases hji : j = i
    · subst hji
      have hstep : epTermStepV2 pts (p : Int) atX j term j = .ok term := by
        simp [epTermStepV2]
      rw [foldME_cons, hstep] at h
      have hfil : (j :: l).filter (fun j2 => j2 ≠ j) = l.filter (fun j2 => j2 ≠ j) := by
        simp [List.filter_cons]
      rw [hfil]
      exact ih term h
    · rw [foldME_cons] at h
      have hstep : epTermStepV2 pts (p : Int) atX i term j =
          match modInverse ((pts.getD i ⟨0, 0⟩).x - (pts.getD j ⟨0, 0⟩).x) (p : Int) with
          | .error e => .error e
          | .ok inv => .ok (term * (atX - (pts.getD j ⟨0, 0⟩).x) * inv) := by
        simp [epTermStepV2, hji]
      rw [hstep] at h
      cases hinv : modInverse ((pts.getD i ⟨0, 0⟩).x - (pts.getD j ⟨0, 0⟩).x) (p : Int) with
      | error e => rw [hinv] at h; cases h
      | ok inv =>
        rw [hinv] at h
        have hfil : (j :: l).filter (fun j2 => j2 ≠ i) =
            j :: l.filter (fun j2 => j2 ≠ i) := by
          simp [List.filter_cons, hji]
        rw [hfil, List.map_cons, List.prod_cons]
        have hout := ih (term * (atX - (pts.getD j ⟨0, 0⟩).x) * inv) h
        rw [hout]
        have hcinv : ((inv : Int) : ZMod p) =
            (((((pts.getD i ⟨0, 0⟩).x - (pts.getD j ⟨0, 0⟩).x) : Int)) : ZMod p)⁻¹ :=
          castModInverse p _ inv hp hinv
        push_cast
        rw [hcinv]
        simp only [xc]
        push_cast
        ring

/-- A successful row of variant 2's `evaluatePolynomial` adds the row's raw
Lagrange term at `atX` (no reduction, so no range bound). -/
theorem epStepV2_ok_cast (atX : Int) (i : Nat) (result out : Int) [Fact p.Prime]
    (h : V2.epStep pts (p : Int) atX result i = .ok out) :
    ((out : Int) : ZMod p) =
      (result : ZMod p) + lagTerm p pts ((atX : Int) : ZMod p) i := by
  unfold V2.epStep at h
  cases hterm : V2.epTerm pts (p : Int) atX i with
  | error e => rw [hterm] at h; cases h
  | ok term =>
    rw [hterm] at h
    injection h with h2
    subst h2
    push_cast
    rw [v2_epTerm_eq_fold] at hterm
    have hc := epTermFoldV2_cast p pts atX i (List.range pts.length)
      (pts.getD i ⟨0, 0⟩).y term hterm
    have hprod : ((((List.range pts.length).filter fun j => j ≠ i).map
        (fun j => ((atX : Int) - (pts.getD j ⟨0, 0⟩).x : Int) *
          ((xc p pts i - xc p pts j)⁻¹ : ZMod p))).prod) =
        ((Finset.range pts.length).erase i).prod
          (fun j => (((atX : Int) : ZMod p) - xc p pts j) * (xc p pts i - xc p pts j)⁻¹) := by
      rw [filter_range_prod]
      apply Finset.prod_congr rfl
      intro j _
      simp only [xc]
      push_cast
      ring
    rw [hc, hprod, lagTerm, yc]

/-- Folding variant 2's evaluation rows: the final value casts to the initial
value plus the sum of the rows' Lagrange terms at `atX`. -/
theorem epFoldV2_cast (atX : Int) (l : List Nat) (result out : Int) [Fact p.Prime]
    (h : foldME (V2.epStep pts (p : Int) atX) result l = .ok out) :
    ((out : Int) : ZMod p) =
      (result : ZMod p) + (l.map (lagTerm p pts ((atX : Int) : ZMod p))).sum := by
  induction l generalizing result with
  | nil =>
    rw [foldME_nil] at h
    injection h with h2
    subst h2
    simp
  | cons i l ih =>
    rw [foldME_cons] at h
    cases hstep : V2.epStep pts (p : Int) atX result i with
    | error e => rw [hstep] at h; cases h
    | ok s2 =>
      rw [hstep] at h
      rw [List.map_cons, List.sum_cons, ← add_assoc,
        ← epStepV2_ok_cast p pts atX i result s2 hstep]
      exact ih s2 h

/-- A successful variant 2 `evaluatePolynomial` lands in `[0, p)` and casts to
the Lagrange-basis sum at `atX`. -/
theorem v2_evaluate_cast (atX v : Int) [Fact p.Prime]
    (h : V2.evaluatePolynomial pts (p : Int) atX = .ok v) :
    ((v : Int) : ZMod p) =
      ∑ i ∈ Finset.range pts.length, lagTerm p pts ((atX : Int) : ZMod p) i ∧
    0 ≤ v ∧ v < p := by
  have hp : 0 < p := (Fact.out : p.Prime).pos
  have hpI : (0 : Int) < (p : Int) := by exact_mod_cast hp
  unfold V2.evaluatePolynomial at h
  cases hf : foldME (V2.epStep pts (p : Int) atX) 0 (List.range pts.length) with
  | error e => rw [hf] at h; cases h
  | ok result =>
    rw [hf] at h
    injection h with h2
    subst h2
    have hneg := neg_lt_jsMod result (p : Int) hpI
    refine ⟨?_, jsMod_nonneg _ _ (by omega), jsMod_lt_of_pos _ _ hpI⟩
    rw [castJsMod]
    push_cast
    rw [castJsMod, ZMod.natCast_self, add_zero]
    have hc := epFoldV2_cast p pts atX (List.range pts.length) 0 result hf
    rw [hc, list_range_map_sum]
    push_cast
    rw [zero_add]

/-- A successful variant 2 `evaluatePolynomial` on points lying on the
polynomial with the given coefficients returns `evalPoly coeffs atX % p`. -/
theorem v2_evaluate_value (coeffs : List Int) (atX v : Int) [Fact p.Prime]
    (hdeg : coeffs.length ≤ pts.length)
    (hinj : Set.InjOn (xc p pts) (Finset.range pts.length))
    (hval : ∀ i ∈ Finset.range pts.length,
      (polyZ p coeffs).eval (xc p pts i) = yc p pts i)
    (h : V2.evaluatePolynomial pts (p : Int) atX = .ok v) :
    v = evalPoly coeffs atX % (p : Int) := by
  have hp : 0 < p := (Fact.out : p.Prime).pos
  have hpI : (0 : Int) < (p : Int) := by exact_mod_cast hp
  obtain ⟨hc, hv0, hvp⟩ := v2_evaluate_cast p pts atX v h
  have hdegW : (polyZ p coeffs).degree < (pts.length : WithBot Nat) :=
    lt_of_lt_of_le (polyZ_degree_lt p coeffs) (by exact_mod_cast hdeg)
  have hsum := lagrange_sum_eval p pts.length (xc p pts) (yc p pts) hinj
    (polyZ p coeffs) hdegW hval ((atX : Int) : ZMod p)
  have hterm : ∀ i ∈ Finset.range pts.length,
      lagTerm p pts ((atX : Int) : ZMod p) i =
        yc p pts i * ((Finset.range pts.length).erase i).prod
          (fun j => (((atX : Int) : ZMod p) - xc p pts j) *
            (xc p pts i - xc p pts j)⁻¹) := by
    intro i _
    rw [lagTerm]
  rw [Finset.sum_congr rfl hterm, hsum, polyZ_eval] at hc
  apply int_eq_of_cast_eq p v (evalPoly coeffs atX % (p : Int)) hp ⟨hv0, hvp⟩
    ⟨Int.emod_nonneg _ (by omega), Int.emod_lt_of_pos _ hpI⟩
  rw [castEmod]
  exact hc

end C1Bridge3

/-- Distinct integer x-coordinates in `[0, p)` give injective field
x-coordinates. -/
theorem xcast_injOn (p : Nat) (pts : List Share) (hp : 0 < p)
    (hrange : ∀ s ∈ pts, 0 ≤ s.x ∧ s.x < (p : Int))
    (hnd : (pts.map Share.x).Nodup) :
    Set.InjOn (xc p pts) (Finset.range pts.length) := by
  intro i hi j hj hxy
  simp only [Finset.coe_range, Set.mem_Iio] at hi hj
  have hgi : pts.getD i ⟨0, 0⟩ = pts[i] := List.getD_eq_getElem pts _ hi
  have hgj : pts.getD j ⟨0, 0⟩ = pts[j] := List.getD_eq_getElem pts _ hj
  rw [xc, xc, hgi, hgj] at hxy
  have hx : (pts[i]).x = (pts[j]).x :=
    int_eq_of_cast_eq p _ _ hp (hrange _ (List.getElem_mem hi))
      (hrange _ (List.getElem_mem hj)) hxy
  have hmi : i < (pts.map Share.x).length := by simpa using hi
  have hmj : j < (pts.map Share.x).length := by simpa using hj
  have hget : (pts.map Share.x).get ⟨i, hmi⟩ = (pts.map Share.x).get ⟨j, hmj⟩ := by
    simp only [List.get_eq_getElem, List.getElem_map]
    exact hx
  have h2 := (List.Nodup.get_inj_iff hnd).mp hget
  exact congrArg Fin.val h2

/-- Shares lying on the coefficient polynomial give the evaluation equations
needed by the Lagrange bridge. -/
theorem polyZ_eval_points (p : Nat) (pts : List Share) (coeffs : List Int)
    (hon : ∀ s ∈ pts, onPoly (p : Int) coeffs s) :
    ∀ i ∈ Finset.range pts.length, (polyZ p coeffs).eval (xc p pts i) = yc p pts i := by
  intro i hi
  rw [Finset.mem_range] at hi
  have hgi : pts.getD i ⟨0, 0⟩ = pts[i] := List.getD_eq_getElem pts _ hi
  have hs := hon pts[i] (List.getElem_mem hi)
  rw [xc, yc, hgi]
  have hcast : ((evalPoly coeffs (pts[i]).x : Int) : ZMod p) =
      (((pts[i]).y : Int) : ZMod p) := by
    rw [ZMod.intCast_eq_intCast_iff]
    exact hs.symm
  rw [polyZ_eval, hcast]

/-- Variant 1's consistency loop, when it does not throw, appends exactly the
other shares lying on the candidate's polynomial. -/
theorem consFoldV1 (p : Nat) [Fact p.Prime] (coeffs : List Int) (combo : List Share)
    (hdeg : coeffs.length ≤ combo.length)
    (hcr : ∀ s ∈ combo, 0 ≤ s.x ∧ s.x < (p : Int))
    (hcnd : (combo.map Share.x).Nodup)
    (hcon : ∀ s ∈ combo, onPoly (p : Int) coeffs s)
    (l : List Share) (hlr : ∀ s ∈ l, 0 ≤ s.y ∧ s.y < (p : Int)) :
    ∀ acc out, foldME (V1.consStep combo (p : Int)) acc l = .ok out →
      out = acc ++ l.filter (fun s => onPoly (p : Int) coeffs s) := by
  have hp : 0 < p := (Fact.out : p.Prime).pos
  have hpI : (0 : Int) < (p : Int) := by exact_mod_cast hp
  induction l with
  | nil =>
    intro acc out h
    rw [foldME_nil] at h
    injection h with h2
    subst h2
    simp
  | cons t l ih =>
    intro acc out h
    rw [foldME_cons] at h
    have hstep : V1.consStep combo (p : Int) acc t =
        match V1.evaluatePolynomial t.x combo (p : Int) with
        | .error e => .error e
        | .ok predictedY =>
          .ok (if predictedY = t.y then acc ++ [t] else acc) := rfl
    rw [hstep] at h
    cases hev : V1.evaluatePolynomial t.x combo (p : Int) with
    | error e => rw [hev] at h; cases h
    | ok ry =>
      rw [hev] at h
      have h2 : foldME (V1.consStep combo (p : Int))
          (if ry = t.y then acc ++ [t] else acc) l = .ok out := h
      have hry : ry = evalPoly coeffs t.x % (p : Int) :=
        v1_evaluate_value p combo coeffs t.x ry hdeg
          (xcast_injOn p combo hp hcr hcnd) (polyZ_eval_points p combo coeffs hcon) hev
      have htr := hlr t (List.mem_cons_self t l)
      have hlr2 : ∀ s ∈ l, 0 ≤ s.y ∧ s.y < (p : Int) :=
        fun s hs => hlr s (List.mem_cons_of_mem t hs)
      by_cases hg : onPoly (p : Int) coeffs t
      · have hty : t.y % (p : Int) = t.y := Int.emod_eq_of_lt htr.1 htr.2
        have hcond : ry = t.y := by
          rw [hry, ← hg, hty]
        rw [if_pos hcond] at h2
        have hout := ih hlr2 (acc ++ [t]) out h2
        rw [hout, List.filter_cons, List.append_assoc]
        simp [hg]
      · have hcond : ry ≠ t.y := by
          intro hc
          apply hg
          show t.y % (p : Int) = evalPoly coeffs t.x % (p : Int)
          rw [← hc, hry, Int.emod_emod_of_dvd _ dvd_rfl]
        rw [if_neg hcond] at h2
        have hout := ih hlr2 acc out h2
        rw [hout, List.filter_cons]
        simp [hg]

/-- Variant 2's consistency loop, when it does not throw: the output extends
the accumulator with correct input shares only, and every correct visited
share has a matching x in the output. -/
theorem consFoldV2 (p : Nat) [Fact p.Prime] (coeffs : List Int) (shares : List Share)
    (hr : ∀ s ∈ shares, (0 ≤ s.x ∧ s.x < (p : Int)) ∧ 0 ≤ s.y ∧ s.y < (p : Int)) :
    ∀ (l : List Share), (∀ s ∈ l, s ∈ shares) →
    ∀ acc out,
      (∀ t ∈ acc, t ∈ shares ∧ onPoly (p : Int) coeffs t) →
      (acc.map Share.x).Nodup →
      coeffs.length ≤ acc.length →
      foldME (V2.consStep (p : Int)) acc l = .ok out →
      (∀ t ∈ out, t ∈ shares ∧ onPoly (p : Int) coeffs t) ∧
      (∃ ext, out = acc ++ ext) ∧
      (∀ s ∈ l, onPoly (p : Int) coeffs s → ∃ t ∈ out, t.x = s.x) := by
  have hp : 0 < p := (Fact.out : p.Prime).pos
  have hpI : (0 : Int) < (p : Int) := by exact_mod_cast hp
  intro l
  induction l with
  | nil =>
    intro _ acc out hacc hand hdeg h
    rw [foldME_nil] at h
    injection h with h2
    subst h2
    exact ⟨hacc, ⟨[], by simp⟩, by simp⟩
  | cons t l ih =>
    intro hl acc out hacc hand hdeg h
    have htsh := hl t (List.mem_cons_self t l)
    have hl2 : ∀ s ∈ l, s ∈ shares := fun s hs => hl s (List.mem_cons_of_mem t hs)
    rw [foldME_cons] at h
    have hstep : V2.consStep (p : Int) acc t =
        (if acc.any fun s => s.x = t.x then .ok acc
        else
          match V2.evaluatePolynomial acc (p : Int) t.x with
          | .error e => .error e
          | .ok reconstructedY =>
            .ok (if t.y = reconstructedY then acc ++ [t] else acc)) := rfl
    rw [hstep] at h
    by_cases hmem : acc.any fun s => s.x = t.x
    · rw [if_pos hmem] at h
      have h2 : foldME (V2.consStep (p : Int)) acc l = .ok out := h
      obtain ⟨hout, ⟨ext, hext⟩, hcover⟩ := ih hl2 acc out hacc hand hdeg h2
      refine ⟨hout, ⟨ext, hext⟩, ?_⟩
      intro s hs hgs
      rcases List.mem_cons.mp hs with rfl | hsl
      · obtain ⟨u, hu, hux⟩ := List.any_eq_true.mp hmem
        rw [decide_eq_true_eq] at hux
        exact ⟨u, by rw [hext]; exact List.mem_append_left _ hu, hux⟩
      · exact hcover s hsl hgs
    · rw [if_neg hmem] at h
      cases hev : V2.evaluatePolynomial acc (p : Int) t.x with
      | error e => rw [hev] at h; cases h
      | ok ry =>
        rw [hev] at h
        have h2 : foldME (V2.consStep (p : Int))
            (if t.y = ry then acc ++ [t] else acc) l = .ok out := h
        have haccr : ∀ s ∈ acc, 0 ≤ s.x ∧ s.x < (p : Int) :=
          fun s hs => (hr s (hacc s hs).1).1
        have hry : ry = evalPoly coeffs t.x % (p : Int) :=
          v2_evaluate_value p acc coeffs t.x ry hdeg
            (xcast_injOn p acc hp haccr hand)
            (polyZ_eval_points p acc coeffs fun s hs => (hacc s hs).2) hev
        have htr := (hr t htsh).2
        by_cases hg : onPoly (p : Int) coeffs t
        · have hty : t.y % (p : Int) = t.y := Int.emod_eq_of_lt htr.1 htr.2
          have hcond : t.y = ry := by
            rw [hry, ← hg, hty]
          rw [if_pos hcond] at h2
          have hacc2 : ∀ u ∈ acc ++ [t], u ∈ shares ∧ onPoly (p : Int) coeffs u := by
            intro u hu
            rcases List.mem_append.mp hu with hu1 | hu2
            · exact hacc u hu1
            · rw [List.mem_singleton.mp hu2]
              exact ⟨htsh, hg⟩
          have hand2 : ((acc ++ [t]).map Share.x).Nodup := by
            rw [List.map_append, List.nodup_append]
            refine ⟨hand, List.nodup_singleton _, ?_⟩
            intro a ha hb
            simp only [List.map_cons, List.map_nil, List.mem_singleton] at hb
            obtain ⟨u, hu, hux⟩ := List.mem_map.mp ha
            apply hmem
            rw [List.any_eq_true]
            exact ⟨u, hu, by rw [decide_eq_true_eq, hux, ← hb]⟩
          have hdeg2 : coeffs.length ≤ (acc ++ [t]).length := by
            rw [List.length_append]
            omega
          obtain ⟨hout, ⟨ext, hext⟩, hcover⟩ := ih hl2 (acc ++ [t]) out hacc2 hand2 hdeg2 h2
          refine ⟨hout, ⟨t :: ext, by rw [hext, List.append_assoc]; rfl⟩, ?_⟩
          intro s hs hgs
          rcases List.mem_cons.mp hs with rfl | hsl
          · refine ⟨s, ?_, rfl⟩
            rw [hext]
            exact List.mem_append_left _
              (List.mem_append_right _ (List.mem_singleton_self s))
          · exact hcover s hsl hgs
        · have hcond : t.y ≠ ry := by
            intro hc
            apply hg
            show t.y % (p : Int) = evalPoly coeffs t.x % (p : Int)
            rw [hc, hry, Int.emod_emod_of_dvd _ dvd_rfl]
          rw [if_neg hcond] at h2
          obtain ⟨hout, ⟨ext, hext⟩, hcover⟩ := ih hl2 acc out hacc hand hdeg h2
          refine ⟨hout, ⟨ext, hext⟩, ?_⟩
          intro s hs hgs
          rcases List.mem_cons.mp hs with rfl | hsl
          · exfalso
            apply hcond
            have hty : s.y % (p : Int) = s.y := Int.emod_eq_of_lt htr.1 htr.2
            rw [hry, ← hgs, hty]
          · exact hcover s hsl hgs

/-- In a list with pairwise-distinct x-coordinates, shares are determined by
their x-coordinate. -/
theorem eq_of_x_nodup (l : List Share) (hnd : (l.map Share.x).Nodup)
    (a b : Share) (ha : a ∈ l) (hb : b ∈ l) (hx : a.x = b.x) : a = b := by
  induction l with
  | nil => cases ha
  | cons hd tl ih =>
    simp only [List.map_cons, List.nodup_cons] at hnd
    rcases List.mem_cons.mp ha with rfl | hatl
    · rcases List.mem_cons.mp hb with rfl | hbtl
      · rfl
      · exact absurd (List.mem_map.mpr ⟨b, hbtl, hx.symm⟩) hnd.1
    · rcases List.mem_cons.mp hb with rfl | hbtl
      · exact absurd (List.mem_map.mpr ⟨a, hatl, hx⟩) hnd.1
      · exact ih hnd.2 hatl hbtl

/-- Variant 1's per-candidate processing on an all-correct candidate, when it
completes without throwing, accepts and classifies the input exactly. -/
theorem v1_processCombo_good (p : Nat) [Fact p.Prime] (k : Nat) (coeffs : List Int)
    (us combo : List Share) (s : Option V1.Success)
    (hk : combo.length = k)
    (hdeg : coeffs.length ≤ k)
    (husr : ∀ t ∈ us, (0 ≤ t.x ∧ t.x < (p : Int)) ∧ 0 ≤ t.y ∧ t.y < (p : Int))
    (husnd : (us.map Share.x).Nodup)
    (hsub : combo.Sublist us)
    (hcon : ∀ t ∈ combo, onPoly (p : Int) coeffs t)
    (hok : V1.processCombo us k (p : Int) combo = .ok s) :
    ∃ r : V1.Success, s = some r ∧
      r.secret = evalPoly coeffs 0 % (p : Int) ∧
      (∀ t, t ∈ r.validShares ↔ t ∈ us ∧ onPoly (p : Int) coeffs t) ∧
      r.invalidShares = us.filter (fun t => ¬ onPoly (p : Int) coeffs t) := by
  have hp : 0 < p := (Fact.out : p.Prime).pos
  have hcm : ∀ t ∈ combo, t ∈ us := fun t ht => hsub.subset ht
  have hcr : ∀ t ∈ combo, 0 ≤ t.x ∧ t.x < (p : Int) := fun t ht => (husr t (hcm t ht)).1
  have hcnd : (combo.map Share.x).Nodup := husnd.sublist (hsub.map Share.x)
  have hdeg2 : coeffs.length ≤ combo.length := by omega
  cases hrs : V1.reconstructSecret combo (p : Int) with
  | error e =>
    exfalso
    unfold V1.processCombo at hok
    rw [hrs] at hok
    have h2 : (Except.error e : Except JsErr (Option V1.Success)) = .ok s := hok
    cases h2
  | ok s0 =>
    cases hfold : foldME (V1.consStep combo (p : Int)) combo
        (us.filter fun t => ¬ combo.any fun cs => cs.x = t.x) with
    | error e =>
      exfalso
      unfold V1.processCombo at hok
      rw [hrs] at hok
      have h2 : (match foldME (V1.consStep combo (p : Int)) combo
          (us.filter fun t => ¬ combo.any fun cs => cs.x = t.x) with
        | .error e => (.error e : Except JsErr (Option V1.Success))
        | .ok consistentShares =>
          if k ≤ consistentShares.length then
            match V1.reconstructSecret (consistentShares.take k) (p : Int) with
            | .error e => .error e
            | .ok finalSecret =>
              .ok (some
                { secret := finalSecret
                  validShares := consistentShares
                  invalidShares :=
                    us.filter fun t => ¬ consistentShares.any fun cs => cs.x = t.x })
          else .ok none) = .ok s := hok
      rw [hfold] at h2
      cases h2
    | ok consistent =>
      rw [v1_processCombo_eq us k (p : Int) combo s0 hrs consistent hfold] at hok
      have hother : ∀ t ∈ (us.filter fun t => ¬ combo.any fun cs => cs.x = t.x),
          0 ≤ t.y ∧ t.y < (p : Int) :=
        fun t ht => (husr t (List.mem_of_mem_filter ht)).2
      have hcons : consistent =
          combo ++ (us.filter fun t => ¬ combo.any fun cs => cs.x = t.x).filter
            (fun t => onPoly (p : Int) coeffs t) :=
        consFoldV1 p coeffs combo hdeg2 hcr hcnd hcon _ hother combo consistent hfold
      have hlen : k ≤ consistent.length := by
        rw [hcons, List.length_append]
        omega
      rw [if_pos hlen] at hok
      have htake : consistent.take k = combo := by
        rw [hcons, ← hk, List.take_left]
      rw [htake, hrs] at hok
      have h2 : (Except.ok (some
          { secret := s0
            validShares := consistent
            invalidShares :=
              us.filter fun t => ¬ consistent.any fun cs => cs.x = t.x }) :
          Except JsErr (Option V1.Success)) = .ok s := hok
      injection h2 with h3
      refine ⟨_, h3.symm, ?_, ?_, ?_⟩
      · exact v1_reconstruct_value p combo coeffs s0 hdeg2
          (xcast_injOn p combo hp hcr hcnd) (polyZ_eval_points p combo coeffs hcon) hrs
      · intro t
        show t ∈ consistent ↔ _
        rw [hcons]
        constructor
        · intro ht
          rcases List.mem_append.mp ht with htc | htf
          · exact ⟨hcm t htc, hcon t htc⟩
          · have h4 := List.mem_filter.mp htf
            have h5 := List.mem_of_mem_filter h4.1
            exact ⟨h5, by simpa using h4.2⟩
        · rintro ⟨htu, htg⟩
          by_cases hxm : combo.any fun cs => cs.x = t.x
          · obtain ⟨cs, hcs, hcsx⟩ := List.any_eq_true.mp hxm
            rw [decide_eq_true_eq] at hcsx
            have : cs = t := eq_of_x_nodup us husnd cs t (hcm cs hcs) htu hcsx
            exact List.mem_append_left _ (this ▸ hcs)
          · apply List.mem_append_right
            apply List.mem_filter.mpr
            refine ⟨List.mem_filter.mpr ⟨htu, ?_⟩, by simpa using htg⟩
            simpa using hxm
      · show us.filter _ = _
        apply List.filter_congr
        intro t htu
        have hiff : (consistent.any fun cs => cs.x = t.x) = true ↔
            onPoly (p : Int) coeffs t := by
          constructor
          · intro hany
            obtain ⟨cs, hcs, hcsx⟩ := List.any_eq_true.mp hany
            rw [decide_eq_true_eq] at hcsx
            rw [hcons] at hcs
            have hcsg : cs ∈ us ∧ onPoly (p : Int) coeffs cs := by
              rcases List.mem_append.mp hcs with htc | htf
              · exact ⟨hcm cs htc, hcon cs htc⟩
              · have h4 := List.mem_filter.mp htf
                exact ⟨List.mem_of_mem_filter h4.1, by simpa using h4.2⟩
            have : cs = t := eq_of_x_nodup us husnd cs t hcsg.1 htu hcsx
            exact this ▸ hcsg.2
          · intro htg
            rw [List.any_eq_true]
            refine ⟨t, ?_, by simp⟩
            rw [hcons]
            by_cases hxm : combo.any fun cs => cs.x = t.x
            · obtain ⟨cs, hcs, hcsx⟩ := List.any_eq_true.mp hxm
              rw [decide_eq_true_eq] at hcsx
              have : cs = t := eq_of_x_nodup us husnd cs t (hcm cs hcs) htu hcsx
              exact List.mem_append_left _ (this ▸ hcs)
            · apply List.mem_append_right
              apply List.mem_filter.mpr
              refine ⟨List.mem_filter.mpr ⟨htu, ?_⟩, by simpa using htg⟩
              simpa using hxm
        exact decide_eq_decide.mpr (not_congr hiff)

/-- Variant 2's per-candidate processing on an all-correct candidate, when it
completes without throwing, accepts with the candidate's interpolated secret
and classifies the input exactly. -/
theorem v2_processCombo_good (p : Nat) [Fact p.Prime] (k : Nat) (coeffs : List Int)
    (shares combo : List Share) (s : Option V2.Success)
    (hk : combo.length = k)
    (hdeg : coeffs.length ≤ k)
    (hr : ∀ t ∈ shares, (0 ≤ t.x ∧ t.x < (p : Int)) ∧ 0 ≤ t.y ∧ t.y < (p : Int))
    (hnd : (shares.map Share.x).Nodup)
    (hsub : combo.Sublist shares)
    (hcon : ∀ t ∈ combo, onPoly (p : Int) coeffs t)
    (hok : V2.processCombo shares k (p : Int) combo = .ok s) :
    ∃ r : V2.Success, s = some r ∧
      r.secret = evalPoly coeffs 0 % (p : Int) ∧
      r.invalidShares = shares.filter (fun t => ¬ onPoly (p : Int) coeffs t) := by
  have hp : 0 < p := (Fact.out : p.Prime).pos
  have hcm : ∀ t ∈ combo, t ∈ shares := fun t ht => hsub.subset ht
  have hcr : ∀ t ∈ combo, 0 ≤ t.x ∧ t.x < (p : Int) := fun t ht => (hr t (hcm t ht)).1
  have hcnd : (combo.map Share.x).Nodup := hnd.sublist (hsub.map Share.x)
  have hdeg2 : coeffs.length ≤ combo.length := by omega
  cases hli : V2.lagrangeInterpolate combo (p : Int) with
  | error e =>
    exfalso
    unfold V2.processCombo at hok
    rw [hli] at hok
    have h2 : (Except.error e : Except JsErr (Option V2.Success)) = .ok s := hok
    cases h2
  | ok s0 =>
    cases hfold : foldME (V2.consStep (p : Int)) combo shares with
    | error e =>
      exfalso
      unfold V2.processCombo at hok
      rw [hli] at hok
      have h2 : (match foldME (V2.consStep (p : Int)) combo shares with
        | .error e => (.error e : Except JsErr (Option V2.Success))
        | .ok consistentShares =>
          if k ≤ consistentShares.length then
            .ok (some
              { secret := s0
                invalidShares :=
                  shares.filter fun t => ¬ consistentShares.any fun cs => cs.x = t.x })
          else .ok none) = .ok s := hok
      rw [hfold] at h2
      cases h2
    | ok consistent =>
      rw [v2_processCombo_eq shares k (p : Int) combo s0 hli consistent hfold] at hok
      have hccl : ∀ t ∈ combo, t ∈ shares ∧ onPoly (p : Int) coeffs t :=
        fun t ht => ⟨hcm t ht, hcon t ht⟩
      obtain ⟨hout, ⟨ext, hext⟩, hcover⟩ :=
        consFoldV2 p coeffs shares hr shares (fun s hs => hs) combo consistent
          hccl hcnd hdeg2 hfold
      have hlen : k ≤ consistent.length := by
        rw [hext, List.length_append]
        omega
      rw [if_pos hlen] at hok
      have h2 : (Except.ok (some
          { secret := s0
            invalidShares :=
              shares.filter fun t => ¬ consistent.any fun cs => cs.x = t.x }) :
          Except JsErr (Option V2.Success)) = .ok s := hok
      injection h2 with h3
      refine ⟨_, h3.symm, ?_, ?_⟩
      · exact v2_lagrange_value p combo coeffs s0 hdeg2
          (xcast_injOn p combo hp hcr hcnd) (polyZ_eval_points p combo coeffs hcon) hli
      · show shares.filter _ = _
        apply List.filter_congr
        intro t htu
        have hiff : (consistent.any fun cs => cs.x = t.x) = true ↔
            onPoly (p : Int) coeffs t := by
          constructor
          · intro hany
            obtain ⟨cs, hcs, hcsx⟩ := List.any_eq_true.mp hany
            rw [decide_eq_true_eq] at hcsx
            have hcsg := hout cs hcs
            have : cs = t := eq_of_x_nodup shares hnd cs t hcsg.1 htu hcsx
            exact this ▸ hcsg.2
          · intro htg
            obtain ⟨u, hu, hux⟩ := hcover t htu htg
            rw [List.any_eq_true]
            exact ⟨u, hu, by simp [hux]⟩
        exact decide_eq_decide.mpr (not_congr hiff)

/-- C1 counterexample (original wording): with prime 257 and k = 2, the input
`[(1,100), (3,4), (5,6), (7,8)]` has three correct shares on y = x + 1
(so n - corrupted = 3 >= k) and one corrupted share (1,100); the claimed
outcome is secret `1` with invalid shares `[(1,100)]`, but variant 1 returns
secret `148` and classifies `[(5,6), (7,8)]` as invalid: the first enumerated
pair contains the corrupted share and its candidate polynomial wins. -/
theorem c1_counterexample :
    (∀ t ∈ [Share.mk 3 4, Share.mk 5 6, Share.mk 7 8], onPoly 257 [1, 1] t) ∧
    ¬ onPoly 257 [1, 1] (Share.mk 1 100) ∧
    V1.findValidSharesAndReconstruct 2
        [Share.mk 1 100, Share.mk 3 4, Share.mk 5 6, Share.mk 7 8] =
      .ok ⟨148, [Share.mk 1 100, Share.mk 3 4], [Share.mk 5 6, Share.mk 7 8]⟩ ∧
    (148 : Int) ≠ evalPoly [1, 1] 0 % 257 ∧
    [Share.mk 5 6, Share.mk 7 8] ≠ [Share.mk 1 100] := by
  exact ⟨by decide, by decide, by rfl, by decide, by decide⟩

/-- C1 (amended): corruption tolerance holds only for the candidate that
actually wins the search.  For either variant, if the winning candidate —
the first enumerated k-subset whose whole `try` block completes without
throwing and is accepted — consists solely of shares lying on a common
degree-(k-1) polynomial over Z/pZ (coefficients and coordinates reduced,
x-coordinates pairwise distinct), then the classifier returns the
polynomial's value at 0 as the secret and classifies exactly the off-polynomial
shares as invalid (variant 1 additionally returns exactly the on-polynomial
shares as valid).  The original claim, which promises this for every input
with at most n-k corrupted shares, is refuted by `c1_counterexample`: the
first candidate containing a corrupted share can win. -/
theorem c1_theorem :
    (∀ (k : Nat) (coeffs : List Int) (shares : List Share)
      (l1 l2 : List (List Share)) (c : List Share) (s : Option V1.Success),
      1 ≤ k → coeffs.length ≤ k → k ≤ shares.length →
      (∀ t ∈ shares, (0 ≤ t.x ∧ t.x < 257) ∧ 0 ≤ t.y ∧ t.y < 257) →
      (shares.map Share.x).Nodup →
      V1.getCombinations shares k = l1 ++ c :: l2 →
      (∀ d ∈ l1, ∀ r : V1.Success, V1.processCombo shares k 257 d ≠ .ok (some r)) →
      (∀ t ∈ c, onPoly 257 coeffs t) →
      V1.processCombo shares k 257 c = .ok s →
      ∃ r : V1.Success,
        V1.findValidSharesAndReconstruct k shares = .ok r ∧
        r.secret = evalPoly coeffs 0 % 257 ∧
        (∀ t, t ∈ r.validShares ↔ t ∈ shares ∧ onPoly 257 coeffs t) ∧
        r.invalidShares = shares.filter (fun t => ¬ onPoly 257 coeffs t)) ∧
    (∀ (p : Nat) (k : Nat) (coeffs : List Int) (shares : List Share)
      (l1 l2 : List (List Share)) (c : List Share) (s : Option V2.Success),
      p.Prime → 1 ≤ k → coeffs.length ≤ k → k ≤ shares.length →
      (∀ t ∈ shares, (0 ≤ t.x ∧ t.x < (p : Int)) ∧ 0 ≤ t.y ∧ t.y < (p : Int)) →
      (shares.map Share.x).Nodup →
      V2.getCombinations shares k = l1 ++ c :: l2 →
      (∀ d ∈ l1, ∀ r : V2.Success,
        V2.processCombo shares k (p : Int) d ≠ .ok (some r)) →
      (∀ t ∈ c, onPoly (p : Int) coeffs t) →
      V2.processCombo shares k (p : Int) c = .ok s →
      ∃ r : V2.Success,
        V2.findValidSharesAndReconstruct (p : Int) k shares = .ok r ∧
        r.secret = evalPoly coeffs 0 % (p : Int) ∧
        r.invalidShares = shares.filter (fun t => ¬ onPoly (p : Int) coeffs t)) := by
  constructor
  · intro k coeffs shares l1 l2 c s hk1 hdeg hks hr hnd hcombos hskip hcon hok
    haveI : Fact (Nat.Prime 257) := ⟨by norm_num⟩
    have hcmem : c ∈ V1.getCombinations shares k := by
      rw [hcombos]
      exact List.mem_append_right _ (List.mem_cons_self c l2)
    rw [getCombinations_eq] at hcmem
    obtain ⟨hsub, hck⟩ := (mem_getCombinations shares k c).mp hcmem
    obtain ⟨r, hsr, hsec, hvalid, hinv⟩ :=
      v1_processCombo_good 257 k coeffs shares c s hck hdeg hr hnd hsub hcon hok
    refine ⟨r, ?_, hsec, hvalid, hinv⟩
    unfold V1.findValidSharesAndReconstruct
    rw [if_neg (by omega : ¬ shares.length < k)]
    simp only [dedupByX_of_nodup shares hnd]
    rw [if_neg (by omega : ¬ shares.length < k), hcombos]
    subst hsr
    exact searchLoop_first _ l1 l2 c r hskip hok
  · intro p k coeffs shares l1 l2 c s hp hk1 hdeg hks hr hnd hcombos hskip hcon hok
    haveI : Fact p.Prime := ⟨hp⟩
    have hcmem : c ∈ V2.getCombinations shares k := by
      rw [hcombos]
      exact List.mem_append_right _ (List.mem_cons_self c l2)
    obtain ⟨hsub, hck⟩ := (mem_getCombinations shares k c).mp hcmem
    obtain ⟨r, hsr, hsec, hinv⟩ :=
      v2_processCombo_good p k coeffs shares c s hck hdeg hr hnd hsub hcon hok
    refine ⟨r, ?_, hsec, hinv⟩
    unfold V2.findValidSharesAndReconstruct
    rw [if_neg (by omega : ¬ shares.length < k), hcombos]
    subst hsr
    exact searchLoop_first _ l1 l2 c r hskip hok

/-- Witness for C1: concrete runs of both variants.  Variant 1 with k = 1 on
the single share (1,5) of the constant polynomial 5, and variant 2 with
prime 2, k = 1 on the single share (1,1) of the constant polynomial 1. -/
theorem c1_witness :
    (∃ r : V1.Success,
      V1.findValidSharesAndReconstruct 1 [Share.mk 1 5] = .ok r ∧
      r.secret = evalPoly [5] 0 % 257 ∧
      (∀ t, t ∈ r.validShares ↔ t ∈ [Share.mk 1 5] ∧ onPoly 257 [5] t) ∧
      r.invalidShares = [Share.mk 1 5].filter (fun t => ¬ onPoly 257 [5] t)) ∧
    (∃ r : V2.Success,
      V2.findValidSharesAndReconstruct ((2 : Nat) : Int) 1 [Share.mk 1 1] = .ok r ∧
      r.secret = evalPoly [1] 0 % ((2 : Nat) : Int) ∧
      r.invalidShares = [Share.mk 1 1].filter
        (fun t => ¬ onPoly ((2 : Nat) : Int) [1] t)) :=
  ⟨c1_theorem.1 1 [5] [Share.mk 1 5] [] [] [Share.mk 1 5]
      (some ⟨5, [Share.mk 1 5], []⟩)
      (by decide) (by decide) (by decide) (by decide) (by decide) (by rfl)
      (by simp) (by decide) (by rfl),
    c1_theorem.2 2 1 [1] [Share.mk 1 1] [] [] [Share.mk 1 1] (some ⟨1, []⟩)
      (by decide) (by decide) (by decide) (by decide) (by decide) (by decide)
      (by rfl) (by simp) (by decide) (by rfl)⟩
